import Mathlib

set_option maxHeartbeats 1000000

/-!
Shallow embedding of the scheduling-decision engine in
src/scheduler/scheduling_logic.py, together with proofs about the claims
of the specification.  Python dictionaries are modelled as
insertion-ordered association lists, Python sets as duplicate-free lists,
and the single reachable exception (the dict KeyError in the MODIFIED
branch of handle_event) as an Except value.
-/

namespace Sched

/-- Mirrors the Python dataclass PodInfo (scheduling_logic.py lines 18-26).
The field spelled namespace in Python is a Lean keyword, hence namespace_. -/
structure PodInfo where
  uid : String
  name : String
  namespace_ : String
  priority : Int
  gang_name : Option String
  waiting_on_deletion : Bool := false
deriving DecidableEq, Repr

/-- Mirrors the Python dataclass SchedulingUnit (lines 29-51). -/
structure SchedulingUnit where
  pods : List PodInfo
  is_gang : Bool
  effective_priority : Int
  gang_name : Option String := none
deriving DecidableEq, Repr

/-- SchedulingUnit.__lt__ (lines 40-46): higher priority first; on equal
priority, fewer pods first. -/
def SchedulingUnit.ltb (a b : SchedulingUnit) : Bool :=
  if a.effective_priority ≠ b.effective_priority then
    decide (a.effective_priority > b.effective_priority)
  else
    decide (a.pods.length < b.pods.length)

/-- SchedulingUnit.required_nodes (lines 48-51). -/
def SchedulingUnit.required_nodes (u : SchedulingUnit) : Nat := u.pods.length

/-- Python-dict assignment m[k] = v on an insertion-ordered association
list: an existing key keeps its position, a fresh key is appended. -/
def dictSet {α : Type} : List (String × α) → String → α → List (String × α)
  | [], k, v => [(k, v)]
  | (k0, v0) :: rest, k, v =>
    if k0 = k then (k0, v) :: rest else (k0, v0) :: dictSet rest k v

/-- Python-dict lookup m[k] / m.get(k). -/
def dictGet? {α : Type} : List (String × α) → String → Option α
  | [], _ => none
  | (k0, v0) :: rest, k => if k0 = k then some v0 else dictGet? rest k

/-- Python k in m. -/
def dictHas {α : Type} (m : List (String × α)) (k : String) : Bool :=
  (dictGet? m k).isSome

/-- Python del m[k] (keys are unique, so removing the first match suffices). -/
def dictDel {α : Type} : List (String × α) → String → List (String × α)
  | [], _ => []
  | (k0, v0) :: rest, k => if k0 = k then rest else (k0, v0) :: dictDel rest k

/-- Python set.add on a duplicate-free list (iteration order is never used). -/
def setAdd (s : List String) (g : String) : List String :=
  if g ∈ s then s else s ++ [g]

/-- Python set.discard. -/
def setDiscard (s : List String) (g : String) : List String :=
  s.filter (fun x => x != g)

/-- Python truthiness of an optional string: None and "" are falsy. -/
def truthy : Option String → Bool
  | none => false
  | some s => s != ""

/-- The gang name of a pod as tested by Python truthiness (an empty
gang_name string behaves like None everywhere the source writes
`if pod_info.gang_name`). -/
def gangOf (p : PodInfo) : Option String :=
  match p.gang_name with
  | some g => if g = "" then none else some g
  | none => none

/-- The mutable state of SchedulingLogic (lines 64-77).  The
scheduling_queue field is rebuilt from scratch by every planning pass
before it is read, so it is modelled as the return value of the queue
builder rather than stored state. -/
structure SchedState where
  node_assignments : List (String × Option String)
  all_pods : List (String × PodInfo)
  gangs_in_transition : List String
deriving DecidableEq, Repr

/-- The state produced by SchedulingLogic.__init__. -/
def SchedState.empty : SchedState := ⟨[], [], []⟩

/-- SchedulingLogic._get_pod_node (lines 79-84): first node whose assigned
uid matches. -/
def getPodNode : List (String × Option String) → String → Option String
  | [], _ => none
  | (n, u) :: rest, uid => if u = some uid then some n else getPodNode rest uid

/-- A pod record as delivered by the adapter (a plain dict in Python). -/
structure PodDict where
  uid : String
  name : String
  namespace_ : String
  priority : Int
  gang_name : Option String
  node_name : Option String
deriving DecidableEq, Repr

inductive EventType
  | ADDED
  | DELETED
  | MODIFIED
deriving DecidableEq, Repr

structure Event where
  event_type : EventType
  pod : PodDict
deriving DecidableEq, Repr

/-- PodInfo built from an event or snapshot dict (lines 113-120 and
154-161): waiting_on_deletion is always reset to false. -/
def mkPod (d : PodDict) : PodInfo :=
  { uid := d.uid, name := d.name, namespace_ := d.namespace_,
    priority := d.priority, gang_name := d.gang_name,
    waiting_on_deletion := false }

/-- The action records of the return envelope (lines 345-350, 394-400). -/
inductive Action
  | preempt (pod_uid pod_name pod_namespace : String)
  | bind (pod_uid pod_name pod_namespace node_name : String)
deriving DecidableEq, Repr

/-- The node-clearing loop of _handle_deleted (lines 231-236); the Python
loop breaks after the first matching node. -/
def clearPodNode : List (String × Option String) → String → List (String × Option String)
  | [], _ => []
  | (n, u) :: rest, uid =>
    if u = some uid then (n, none) :: rest else (n, u) :: clearPodNode rest uid

/-- SchedulingLogic._handle_deleted (lines 225-236). -/
def handleDeleted (p : PodInfo) (s : SchedState) : SchedState :=
  let pods := if dictHas s.all_pods p.uid then dictDel s.all_pods p.uid else s.all_pods
  { s with all_pods := pods,
           node_assignments := clearPodNode s.node_assignments p.uid }

/-- SchedulingLogic._check_gang_reformation_complete (lines 204-223). -/
def checkGangReformation (gang : String) (s : SchedState) : SchedState :=
  let gang_pods := (s.all_pods.map Prod.snd).filter (fun p => p.gang_name == some gang)
  if gang_pods.any (fun p => p.waiting_on_deletion) then s
  else if gang_pods.length = 0 then s
  else { s with gangs_in_transition := setDiscard s.gangs_in_transition gang }

/-- Appending a pod to its gang's group (lines 250-254): a new gang name is
appended at the end, members accumulate in table order. -/
def gangAdd : List (String × List PodInfo) → String → PodInfo → List (String × List PodInfo)
  | [], g, p => [(g, [p])]
  | (g0, ps) :: rest, g, p =>
    if g0 = g then (g0, ps ++ [p]) :: rest else (g0, ps) :: gangAdd rest g p

/-- Phase 1 of _rebuild_scheduling_queue (lines 241-257): partition the
pods into singles and gangs, skipping pods waiting on deletion. -/
def collectPods (pods : List PodInfo) : List PodInfo × List (String × List PodInfo) :=
  pods.foldl
    (fun acc p =>
      if p.waiting_on_deletion then acc
      else
        match gangOf p with
        | some g => (acc.1, gangAdd acc.2 g p)
        | none => (acc.1 ++ [p], acc.2))
    ([], [])

/-- min(p.priority for p in gang_pods) (line 283); gang groups are nonempty
by construction so the empty case is unreachable. -/
def minPriority : List PodInfo → Int
  | [] => 0
  | p :: rest => rest.foldl (fun m q => min m q.priority) p.priority

/-- Phase 2 of _rebuild_scheduling_queue for gangs (lines 271-290). -/
def gangUnitsOf (trans : List String) : List (String × List PodInfo) → List SchedulingUnit
  | [] => []
  | (g, ps) :: rest =>
    if ps.any (fun p => p.waiting_on_deletion) then gangUnitsOf trans rest
    else if g ∈ trans then gangUnitsOf trans rest
    else { pods := ps, is_gang := true, effective_priority := minPriority ps,
           gang_name := some g } :: gangUnitsOf trans rest

/-- The unsorted unit list of _rebuild_scheduling_queue (lines 259-290). -/
def buildUnits (s : SchedState) : List SchedulingUnit :=
  let sg := collectPods (s.all_pods.map Prod.snd)
  (sg.1.map fun p =>
    { pods := [p], is_gang := false, effective_priority := p.priority,
      gang_name := none })
  ++ gangUnitsOf s.gangs_in_transition sg.2

/-- One step of a stable insertion sort with the __lt__ comparator. -/
def insertUnit (u : SchedulingUnit) : List SchedulingUnit → List SchedulingUnit
  | [] => [u]
  | v :: rest => if SchedulingUnit.ltb u v then u :: v :: rest else v :: insertUnit u rest

/-- Python sorted(units) (line 293).  sorted() is a stable sort and __lt__
is a strict weak order on the (priority, size) key, so every stable sort,
in particular this insertion sort, produces the same list. -/
def sortUnits (l : List SchedulingUnit) : List SchedulingUnit :=
  l.foldl (fun acc u => insertUnit u acc) []

/-- SchedulingLogic._rebuild_scheduling_queue (lines 239-294). -/
def rebuildQueue (s : SchedState) : List SchedulingUnit :=
  sortUnits (buildUnits s)

/-- The capacity fold of _create_scheduling_plan (lines 308-319). -/
def planAux (total : Nat) : Nat → List SchedulingUnit → List SchedulingUnit
  | _, [] => []
  | needed, u :: rest =>
    if needed + u.required_nodes ≤ total then
      u :: planAux total (needed + u.required_nodes) rest
    else
      planAux total needed rest

/-- SchedulingLogic._create_scheduling_plan (lines 296-320). -/
def createPlan (s : SchedState) : List SchedulingUnit :=
  planAux s.node_assignments.length 0 (rebuildQueue s)

/-- The flattened pods of a plan (line 335 builds the uid set from them). -/
def planPodList (plan : List SchedulingUnit) : List PodInfo :=
  (plan.map SchedulingUnit.pods).flatten

/-- pods_in_plan (line 335); Python uses a set but only membership is ever
queried, so a list is an adequate model. -/
def planPodUids (plan : List SchedulingUnit) : List String :=
  (planPodList plan).map PodInfo.uid

/-- Step 2 of _plan_to_actions (lines 338-364): walk the node table in
order; every truthy-assigned pod that is not in the plan is preempted, its
record marked waiting_on_deletion, its gang (if truthy) marked in
transition, and its node cleared; a dangling uid only clears the node. -/
def doPreempts (pods_in_plan : List String) :
    List (String × Option String) → List (String × PodInfo) → List String →
    List (String × Option String) × List (String × PodInfo) × List String × List Action
  | [], pods, tset => ([], pods, tset, [])
  | (n, u) :: rest, pods, tset =>
    match u with
    | some uid =>
      if uid ≠ "" ∧ uid ∉ pods_in_plan then
        match dictGet? pods uid with
        | some pinfo =>
          let pods1 := dictSet pods uid { pinfo with waiting_on_deletion := true }
          let tset1 :=
            match gangOf pinfo with
            | some g => setAdd tset g
            | none => tset
          let r := doPreempts pods_in_plan rest pods1 tset1
          ((n, none) :: r.1, r.2.1, r.2.2.1,
            Action.preempt uid pinfo.name pinfo.namespace_ :: r.2.2.2)
        | none =>
          let r := doPreempts pods_in_plan rest pods tset
          ((n, none) :: r.1, r.2.1, r.2.2.1, r.2.2.2)
      else
        let r := doPreempts pods_in_plan rest pods tset
        ((n, some uid) :: r.1, r.2.1, r.2.2.1, r.2.2.2)
    | none =>
      let r := doPreempts pods_in_plan rest pods tset
      ((n, none) :: r.1, r.2.1, r.2.2.1, r.2.2.2)

/-- One step of an insertion sort on strings. -/
def insertStr (x : String) : List String → List String
  | [] => [x]
  | y :: rest => if x < y then x :: y :: rest else y :: insertStr x rest

/-- Python sorted() on node names (line 367), ascending code-point order. -/
def sortStrings (l : List String) : List String :=
  l.foldl (fun acc x => insertStr x acc) []

/-- The inner pod loop of step 4 of _plan_to_actions (lines 371-403) for
one unit.  The already-assigned test `if assigned_node:` on line 375 is a
Python truthiness check, so a pod whose only assignment is on a node
literally named "" counts as unassigned and is re-bound.  Both
logged-error branches break out of the pod loop only; the node popped on
the broken-assignment branch stays consumed, as in the source.  The
lookup self.node_assignments[node] cannot miss because node is drawn from
the key set, so the join of the optional lookup is exact. -/
def bindUnit : List (String × Option String) → List String → List PodInfo →
    List (String × Option String) × List String × List Action
  | A, avail, [] => (A, avail, [])
  | A, avail, p :: rest =>
    if truthy (getPodNode A p.uid) then bindUnit A avail rest
    else
      match avail with
      | [] => (A, avail, [])
      | n :: avail1 =>
        if truthy (dictGet? A n).join then (A, avail1, [])
        else
          let A1 := dictSet A n (some p.uid)
          let r := bindUnit A1 avail1 rest
          (r.1, r.2.1, Action.bind p.uid p.name p.namespace_ n :: r.2.2)

/-- Step 4 of _plan_to_actions over the whole plan (lines 371-403). -/
def bindAll : List (String × Option String) → List String → List SchedulingUnit →
    List (String × Option String) × List String × List Action
  | A, avail, [] => (A, avail, [])
  | A, avail, u :: rest =>
    let r := bindUnit A avail u.pods
    let r2 := bindAll r.1 r.2.1 rest
    (r2.1, r2.2.1, r.2.2 ++ r2.2.2)

/-- Step 3 of _plan_to_actions (line 367): nodes whose assignment is None. -/
def freeNodes (A : List (String × Option String)) : List String :=
  (A.filter (fun kv => kv.2.isNone)).map Prod.fst

/-- SchedulingLogic._plan_to_actions (lines 322-405). -/
def planToActions (s : SchedState) (plan : List SchedulingUnit) :
    SchedState × List Action :=
  let pods_in_plan := planPodUids plan
  let r := doPreempts pods_in_plan s.node_assignments s.all_pods s.gangs_in_transition
  let avail := sortStrings (freeNodes r.1)
  let rb := bindAll r.1 avail plan
  ({ node_assignments := rb.1, all_pods := r.2.1, gangs_in_transition := r.2.2.1 },
    r.2.2.2 ++ rb.2.2)

/-- The post-event pipeline shared by initialize and handle_event: build a
plan on the current state (lines 131-132 and 199-200), then diff it into
actions. -/
def pipelineRun (s : SchedState) : SchedState × List Action :=
  planToActions s (createPlan s)

/-- SchedulingLogic.initialize (lines 86-133), named initCluster here.  It
resets only node_assignments; a pre-existing pod table and transition set
are kept, as in the source. -/
def initCluster (nodes : List String) (existing_pods : List PodDict)
    (s : SchedState) : SchedState × List Action :=
  let A0 := nodes.foldl (fun m n => dictSet m n none) []
  let s1 := existing_pods.foldl
    (fun st d =>
      let pod := mkPod d
      let pods1 := dictSet st.all_pods pod.uid pod
      let A1 :=
        match d.node_name with
        | some n =>
          if n ≠ "" ∧ dictHas st.node_assignments n = true then
            dictSet st.node_assignments n (some pod.uid)
          else st.node_assignments
        | none => st.node_assignments
      { st with all_pods := pods1, node_assignments := A1 })
    { s with node_assignments := A0 }
  pipelineRun s1

/-- The state mutation of the ADDED branch of handle_event (lines
185-196): insert or refresh the pod, record a truthy tracked node_name,
then re-check gang reformation when the pod's gang is in transition. -/
def addedMutate (pod : PodInfo) (node_name : Option String) (s : SchedState) : SchedState :=
  let pods1 := dictSet s.all_pods pod.uid pod
  let A1 :=
    match node_name with
    | some n =>
      if n ≠ "" ∧ dictHas s.node_assignments n = true then
        dictSet s.node_assignments n (some pod.uid)
      else s.node_assignments
    | none => s.node_assignments
  let s1 : SchedState := { s with all_pods := pods1, node_assignments := A1 }
  match gangOf pod with
  | some g => if g ∈ s1.gangs_in_transition then checkGangReformation g s1 else s1
  | none => s1

/-- SchedulingLogic.handle_event (lines 135-202).  The only exception a
well-formed event can raise is the dict KeyError on line 177, when a
MODIFIED event for a known pod names an untracked node; it is modelled by
the error case of Except. -/
def handleEvent (e : Event) (s : SchedState) : Except String (SchedState × List Action) :=
  let pod := mkPod e.pod
  match e.event_type with
  | EventType.DELETED =>
    Except.ok (pipelineRun (handleDeleted pod s))
  | EventType.MODIFIED =>
    if dictHas s.all_pods pod.uid = false then Except.ok (s, [])
    else
      match e.pod.node_name with
      | some n =>
        if n = "" then Except.ok (s, [])
        else
          match dictGet? s.node_assignments n with
          | none => Except.error "KeyError: node_name not in node_assignments"
          | some v =>
            if v = some pod.uid then Except.ok (pipelineRun s)
            else Except.ok (s, [])
      | none => Except.ok (s, [])
  | EventType.ADDED =>
    Except.ok (pipelineRun (addedMutate pod e.pod.node_name s))

/-- The state component of the post-event pipeline. -/
def pipelineState (s : SchedState) : SchedState := (pipelineRun s).1

/-- The running capacity accumulator of _create_scheduling_plan after a
prefix of the queue (the value of nodes_needed at line 317). -/
def usedAfter (total : Nat) : Nat → List SchedulingUnit → Nat
  | needed, [] => needed
  | needed, u :: rest =>
    if needed + u.required_nodes ≤ total then
      usedAfter total (needed + u.required_nodes) rest
    else
      usedAfter total needed rest

/-- The multiset of assigned pod uids in the node table (including pods
assigned to several nodes, which invariant I2 forbids). -/
def assignedUids (A : List (String × Option String)) : List String :=
  A.filterMap Prod.snd

/-- The gang_pods list of _check_gang_reformation_complete (line 209). -/
def gangMembers (pods : List (String × PodInfo)) (g : String) : List PodInfo :=
  (pods.map Prod.snd).filter (fun p => p.gang_name == some g)

/-- Well-formedness of the dictionary representation: unique keys, and
every pod record is stored under its own uid.  Every state reachable from
SchedState.empty satisfies this. -/
def WFKeys (s : SchedState) : Prop :=
  (s.node_assignments.map Prod.fst).Nodup ∧
  (s.all_pods.map Prod.fst).Nodup ∧
  ∀ kv ∈ s.all_pods, (kv.2).uid = kv.1

/-- Reachable-state invariant: a pod waiting on deletion that belongs to a
(truthy) gang has its gang marked in transition.  Preemption establishes
it (lines 353-359) and gang reformation only clears the transition mark
when no member is waiting (lines 211-214). -/
def waitTransB (s : SchedState) : Bool :=
  s.all_pods.all fun kv =>
    !(kv.2).waiting_on_deletion ||
      (match gangOf kv.2 with
       | some g => decide (g ∈ s.gangs_in_transition)
       | none => true)

/-- Mark the records of the listed uids as waiting_on_deletion (the effect
of step 2 of _plan_to_actions on the pod table). -/
def markWaiting (B : List String) (pods : List (String × PodInfo)) :
    List (String × PodInfo) :=
  pods.map fun kv =>
    if kv.1 ∈ B then (kv.1, { kv.2 with waiting_on_deletion := true }) else kv

/-- The uids preempted by step 2 of _plan_to_actions: truthy-assigned, not
in the plan, and present in the pod table. -/
def preemptedUids (pods_in_plan : List String) (pods : List (String × PodInfo)) :
    List (String × Option String) → List String
  | [] => []
  | (_, u) :: rest =>
    match u with
    | some uid =>
      if uid ≠ "" ∧ uid ∉ pods_in_plan ∧ dictHas pods uid = true then
        uid :: preemptedUids pods_in_plan pods rest
      else
        preemptedUids pods_in_plan pods rest
    | none => preemptedUids pods_in_plan pods rest

/- Concrete records for the boundary scenarios referenced by the claims. -/

def lowDict : PodDict :=
  { uid := "low", name := "low", namespace_ := "default", priority := 10,
    gang_name := none, node_name := some "node-1" }

def highDict : PodDict :=
  { uid := "high", name := "high", namespace_ := "default", priority := 100,
    gang_name := none, node_name := none }

def addedEvent (d : PodDict) : Event := { event_type := EventType.ADDED, pod := d }

/-- Engine state after initialize(nodes=[node-1], existing=[low@node-1]). -/
def c1State : SchedState := (initCluster ["node-1"] [lowDict] SchedState.empty).1

/-- A pod record named after its uid in the default namespace. -/
def pd (u : String) (prio : Int) (g : Option String) : PodInfo :=
  { uid := u, name := u, namespace_ := "default", priority := prio, gang_name := g }

/-- Two empty nodes; a high single, a three-member gang A at priority 50,
and a low single (spec boundary scenario 4/P7 shape). -/
def c2S : SchedState :=
  { node_assignments := [("node-1", none), ("node-2", none)],
    all_pods := [("high", pd "high" 100 none), ("g1", pd "g1" 50 (some "A")),
                 ("g2", pd "g2" 50 (some "A")), ("g3", pd "g3" 50 (some "A")),
                 ("mid", pd "mid" 40 none)],
    gangs_in_transition := [] }

def c2HighU : SchedulingUnit :=
  { pods := [pd "high" 100 none], is_gang := false, effective_priority := 100,
    gang_name := none }

def c2GangU : SchedulingUnit :=
  { pods := [pd "g1" 50 (some "A"), pd "g2" 50 (some "A"), pd "g3" 50 (some "A")],
    is_gang := true, effective_priority := 50, gang_name := some "A" }

def c2MidU : SchedulingUnit :=
  { pods := [pd "mid" 40 none], is_gang := false, effective_priority := 40,
    gang_name := none }

/-- Pod p bound to node-1 in the initial snapshot. -/
def pDict1 : PodDict :=
  { uid := "p", name := "p", namespace_ := "default", priority := 10,
    gang_name := none, node_name := some "node-1" }

/-- The same pod p delivered again with node_name node-2. -/
def pDict2 : PodDict :=
  { uid := "p", name := "p", namespace_ := "default", priority := 10,
    gang_name := none, node_name := some "node-2" }

/-- Engine state after initialize(nodes=[node-1, node-2], existing=[p@node-1]). -/
def c5State : SchedState := (initCluster ["node-1", "node-2"] [pDict1] SchedState.empty).1

/-- A MODIFIED event for the known pod low naming the untracked node-2. -/
def c7Event : Event :=
  { event_type := EventType.MODIFIED,
    pod := { uid := "low", name := "low", namespace_ := "default", priority := 10,
             gang_name := none, node_name := some "node-2" } }

/-- A gang-A pod waiting on deletion while gang A is in transition. -/
def c8S : SchedState :=
  { node_assignments := [("node-1", none)],
    all_pods := [("p1", { uid := "p1", name := "p1", namespace_ := "default",
                          priority := 50, gang_name := some "A",
                          waiting_on_deletion := true })],
    gangs_in_transition := ["A"] }

/-- The low pod redelivered with no node_name (recreated after preempt). -/
def lowNoNode : PodDict :=
  { uid := "low", name := "low", namespace_ := "default", priority := 10,
    gang_name := none, node_name := none }

/-- State after C1's preemption: high bound to node-1, low waiting on
deletion. -/
def c10S : SchedState :=
  { node_assignments := [("node-1", some "high")],
    all_pods :=
      [("low", { uid := "low", name := "low", namespace_ := "default",
                 priority := 10, gang_name := none, waiting_on_deletion := true }),
       ("high", { uid := "high", name := "high", namespace_ := "default",
                  priority := 100, gang_name := none, waiting_on_deletion := false })],
    gangs_in_transition := [] }

/-- The high pod bound to node-1 in the initial snapshot. -/
def hiDict : PodDict :=
  { uid := "hi", name := "hi", namespace_ := "default", priority := 100,
    gang_name := none, node_name := some "node-1" }

/-- A stale ADDED record claiming pod lo sits on node-1. -/
def loDict : PodDict :=
  { uid := "lo", name := "lo", namespace_ := "default", priority := 10,
    gang_name := none, node_name := some "node-1" }

/-- Engine state after initialize(nodes=[node-1], existing=[hi@node-1]). -/
def c9S0 : SchedState := (initCluster ["node-1"] [hiDict] SchedState.empty).1

/-- The fold step of collectPods (lines 245-257), named so the fold can
be reasoned about stepwise; definitionally the lambda of collectPods. -/
def collectStep (acc : List PodInfo × List (String × List PodInfo)) (p : PodInfo) :
    List PodInfo × List (String × List PodInfo) :=
  if p.waiting_on_deletion then acc
  else
    match gangOf p with
    | some g => (acc.1, gangAdd acc.2 g p)
    | none => (acc.1 ++ [p], acc.2)

/-- The record update applied by preemption to one pod value (the image
of a single entry under markWaiting, read off the uid field). -/
def markOne (B : List String) (p : PodInfo) : PodInfo :=
  if p.uid ∈ B then { p with waiting_on_deletion := true } else p

/-- The units of a scheduling queue that survive into the queue of the
immediately following planning pass: gang units whose gang has not
entered transition, and single units whose pod was not preempted. -/
def keepUnit (B tset : List String) (u : SchedulingUnit) : Bool :=
  match u.gang_name with
  | some g => !(List.elem g tset)
  | none => u.pods.all fun p => !(List.elem p.uid B)

/-- A schedulable low-priority single pod record. -/
def loPodC6 : PodInfo :=
  { uid := "lo", name := "lo", namespace_ := "default", priority := 10,
    gang_name := none, waiting_on_deletion := false }

/-- A schedulable high-priority single pod record. -/
def hiPodC6 : PodInfo :=
  { uid := "hi", name := "hi", namespace_ := "default", priority := 100,
    gang_name := none, waiting_on_deletion := false }

/-- Two nodes, lo bound to node-1, hi known but unbound: a consistent
MODIFIED event for lo still triggers a bind of hi. -/
def c6S : SchedState :=
  { node_assignments := [("node-1", some "lo"), ("node-2", none)],
    all_pods := [("lo", loPodC6), ("hi", hiPodC6)],
    gangs_in_transition := [] }

/-- A MODIFIED event for lo whose node_name matches its assignment. -/
def c6Event : Event :=
  { event_type := EventType.MODIFIED,
    pod := { uid := "lo", name := "lo", namespace_ := "default", priority := 10,
             gang_name := none, node_name := some "node-1" } }

/-- One node with hi bound to it; a fully scheduled state. -/
def c6WS : SchedState :=
  { node_assignments := [("node-1", some "hi")],
    all_pods := [("hi", hiPodC6)],
    gangs_in_transition := [] }

/-- A consistent MODIFIED event for hi on node-1. -/
def c6WEvent : Event :=
  { event_type := EventType.MODIFIED,
    pod := { uid := "hi", name := "hi", namespace_ := "default", priority := 100,
             gang_name := none, node_name := some "node-1" } }

/-- One node with lo bound to it. -/
def c9WS : SchedState :=
  { node_assignments := [("node-1", some "lo")],
    all_pods := [("lo", loPodC6)],
    gangs_in_transition := [] }

/-- A DELETED event for lo. -/
def c9WEvent : Event :=
  { event_type := EventType.DELETED,
    pod := { uid := "lo", name := "lo", namespace_ := "default", priority := 10,
             gang_name := none, node_name := some "node-1" } }

/-- The state after deleting lo from c9WS: empty pod table, node freed. -/
def c9WS1 : SchedState :=
  { node_assignments := [("node-1", none)], all_pods := [],
    gangs_in_transition := [] }

/-! ## Theorems -/

/-- C1: after initialize(nodes=[node-1], existing=[{uid:low, priority:10,
node_name:node-1}]), handle_event(ADDED {uid:high, priority:100, no
node_name}) returns exactly the two actions preempt(low) then
bind(high, node-1), in this order. -/
theorem c1_single_preemption :
    (handleEvent (addedEvent highDict) c1State).map Prod.snd =
      Except.ok [Action.preempt "low" "low" "default",
                 Action.bind "high" "high" "default" "node-1"] := by
  rfl

theorem planAux_sum_le (total : Nat) (l : List SchedulingUnit) :
    ∀ needed : Nat, needed ≤ total →
      needed + ((planAux total needed l).map SchedulingUnit.required_nodes).sum ≤ total := by
  induction l with
  | nil => intro needed h; simpa [planAux] using h
  | cons u rest ih =>
    intro needed h
    by_cases hfit : needed + u.required_nodes ≤ total
    · simp only [planAux, if_pos hfit, List.map_cons, List.sum_cons]
      have := ih (needed + u.required_nodes) hfit
      omega
    · simp only [planAux, if_neg hfit]
      exact ih needed h

/-- C4: for every engine state, the cumulative required-node count of the
plan (sum of unit sizes) never exceeds the total number of tracked nodes. -/
theorem c4_plan_fits (s : SchedState) :
    ((createPlan s).map SchedulingUnit.required_nodes).sum ≤ s.node_assignments.length := by
  have h := planAux_sum_le s.node_assignments.length (rebuildQueue s) 0 (Nat.zero_le _)
  simpa [createPlan] using h

theorem planAux_append (total : Nat) (l1 l2 : List SchedulingUnit) :
    ∀ needed, planAux total needed (l1 ++ l2) =
      planAux total needed l1 ++ planAux total (usedAfter total needed l1) l2 := by
  induction l1 with
  | nil => intro needed; simp [planAux, usedAfter]
  | cons u rest ih =>
    intro needed
    by_cases hfit : needed + u.required_nodes ≤ total
    · simp [planAux, usedAfter, if_pos hfit, ih]
    · simp [planAux, usedAfter, if_neg hfit, ih]

/-- C2: the plan builder scans the whole priority-ordered queue and never
stops at a unit that does not fit: at every queue position the unit is
admitted exactly when its size fits the capacity left by the units
admitted before it, and the scan continues over the rest of the queue
after every skip, so lower-priority units that fit (for example around an
inadmissible gang) are still placed. -/
theorem c2_no_stop_on_skip (s : SchedState) (pre post : List SchedulingUnit)
    (u : SchedulingUnit) (hsplit : rebuildQueue s = pre ++ u :: post) :
    (usedAfter s.node_assignments.length 0 pre + u.required_nodes ≤
        s.node_assignments.length →
      createPlan s =
        planAux s.node_assignments.length 0 pre ++
          u :: planAux s.node_assignments.length
            (usedAfter s.node_assignments.length 0 pre + u.required_nodes) post) ∧
    (¬ usedAfter s.node_assignments.length 0 pre + u.required_nodes ≤
        s.node_assignments.length →
      createPlan s =
        planAux s.node_assignments.length 0 pre ++
          planAux s.node_assignments.length
            (usedAfter s.node_assignments.length 0 pre) post) := by
  constructor
  · intro hfit
    unfold createPlan
    rw [hsplit, planAux_append]
    simp [planAux, if_pos hfit]
  · intro hfit
    unfold createPlan
    rw [hsplit, planAux_append]
    simp [planAux, if_neg hfit]

/-- Witness for C2 at the P7 scenario: two nodes, plan admits the high
single, skips the size-3 gang, and still admits the lower-priority single
behind it. -/
theorem c2_no_stop_on_skip_witness :
    rebuildQueue c2S = [c2HighU, c2GangU] ++ c2MidU :: [] ∧
      createPlan c2S =
        planAux 2 0 [c2HighU, c2GangU] ++
          c2MidU :: planAux 2
            (usedAfter 2 0 [c2HighU, c2GangU] + c2MidU.required_nodes) [] :=
  ⟨by decide,
    (c2_no_stop_on_skip c2S [c2HighU, c2GangU] [] c2MidU (by decide)).1 (by decide)⟩

theorem ltb_false_iff (a b : SchedulingUnit) :
    SchedulingUnit.ltb b a = false ↔
      (a.effective_priority > b.effective_priority ∨
        (a.effective_priority = b.effective_priority ∧ a.pods.length ≤ b.pods.length)) := by
  simp only [SchedulingUnit.ltb]
  split_ifs with h
  · simp only [decide_eq_false_iff_not]
    omega
  · simp only [decide_eq_false_iff_not]
    omega

theorem ltb_true_asymm {u v : SchedulingUnit} (h : SchedulingUnit.ltb u v = true) :
    SchedulingUnit.ltb v u = false := by
  simp only [SchedulingUnit.ltb] at h ⊢
  split_ifs at h ⊢ with h1 h2 <;> simp_all <;> omega

theorem ltb_false_trans {a b c : SchedulingUnit}
    (h1 : SchedulingUnit.ltb b a = false) (h2 : SchedulingUnit.ltb c b = false) :
    SchedulingUnit.ltb c a = false := by
  rw [ltb_false_iff] at h1 h2 ⊢
  rcases h1 with h1 | ⟨h1, h1l⟩ <;> rcases h2 with h2 | ⟨h2, h2l⟩ <;>
    first
      | exact Or.inl (by omega)
      | exact Or.inr ⟨by omega, by omega⟩

theorem mem_insertUnit {x u : SchedulingUnit} :
    ∀ {l : List SchedulingUnit}, x ∈ insertUnit u l ↔ x = u ∨ x ∈ l := by
  intro l
  induction l with
  | nil => simp [insertUnit]
  | cons v rest ih =>
    simp only [insertUnit]
    split_ifs with h
    · simp [List.mem_cons]
    · simp only [List.mem_cons, ih]
      tauto

theorem pairwise_insertUnit {u : SchedulingUnit} :
    ∀ {l : List SchedulingUnit},
      l.Pairwise (fun a b => SchedulingUnit.ltb b a = false) →
      (insertUnit u l).Pairwise (fun a b => SchedulingUnit.ltb b a = false) := by
  intro l
  induction l with
  | nil => intro _; simp [insertUnit]
  | cons v rest ih =>
    intro hp
    rw [List.pairwise_cons] at hp
    simp only [insertUnit]
    split_ifs with h
    · refine List.Pairwise.cons ?_ (List.Pairwise.cons hp.1 hp.2)
      intro w hw
      rcases List.mem_cons.mp hw with rfl | hw
      · exact ltb_true_asymm h
      · exact ltb_false_trans (ltb_true_asymm h) (hp.1 w hw)
    · refine List.Pairwise.cons ?_ (ih hp.2)
      intro w hw
      rcases mem_insertUnit.mp hw with rfl | hw
      · simpa using h
      · exact hp.1 w hw

theorem sortUnits_pairwise (l : List SchedulingUnit) :
    (sortUnits l).Pairwise (fun a b => SchedulingUnit.ltb b a = false) := by
  suffices h : ∀ acc : List SchedulingUnit,
      acc.Pairwise (fun a b => SchedulingUnit.ltb b a = false) →
      (l.foldl (fun acc u => insertUnit u acc) acc).Pairwise
        (fun a b => SchedulingUnit.ltb b a = false) by
    exact h [] (by simp)
  induction l with
  | nil => intro acc hacc; simpa using hacc
  | cons u rest ih =>
    intro acc hacc
    exact ih _ (pairwise_insertUnit hacc)

theorem mem_sortUnits {x : SchedulingUnit} (l : List SchedulingUnit) :
    x ∈ sortUnits l ↔ x ∈ l := by
  suffices h : ∀ acc : List SchedulingUnit,
      (x ∈ l.foldl (fun acc u => insertUnit u acc) acc ↔ x ∈ l ∨ x ∈ acc) by
    simpa [sortUnits] using h []
  induction l with
  | nil => intro acc; simp
  | cons u rest ih =>
    intro acc
    rw [List.foldl_cons, ih, mem_insertUnit]
    simp only [List.mem_cons]
    tauto

theorem gangAdd_inv {g : String} {p : PodInfo}
    (hg : gangOf p = some g) (hw : p.waiting_on_deletion = false) :
    ∀ {gl : List (String × List PodInfo)},
      (∀ gps ∈ gl, gps.2 ≠ [] ∧
          ∀ q ∈ gps.2, gangOf q = some gps.1 ∧ q.waiting_on_deletion = false) →
      ∀ gps ∈ gangAdd gl g p, gps.2 ≠ [] ∧
        ∀ q ∈ gps.2, gangOf q = some gps.1 ∧ q.waiting_on_deletion = false := by
  intro gl
  induction gl with
  | nil =>
    intro _ gps hgps
    simp only [gangAdd, List.mem_singleton] at hgps
    subst hgps
    refine ⟨by simp, fun q hq => ?_⟩
    rw [List.mem_singleton] at hq
    subst hq
    exact ⟨hg, hw⟩
  | cons hd rest ih =>
    intro h gps hgps
    obtain ⟨g0, ps⟩ := hd
    simp only [gangAdd] at hgps
    split_ifs at hgps with heq
    · rw [List.mem_cons] at hgps
      rcases hgps with hgps | hmem
      · subst hgps
        refine ⟨by simp, fun q hq => ?_⟩
        rcases List.mem_append.mp hq with hq | hq
        · exact (h (g0, ps) (List.mem_cons_self _ _)).2 q hq
        · rw [List.mem_singleton] at hq
          subst hq
          exact ⟨by rw [hg, heq], hw⟩
      · exact h gps (List.mem_cons_of_mem _ hmem)
    · rw [List.mem_cons] at hgps
      rcases hgps with hgps | hmem
      · subst hgps
        exact h (g0, ps) (List.mem_cons_self _ _)
      · exact ih (fun x hx => h x (List.mem_cons_of_mem _ hx)) gps hmem

theorem collectPods_inv (l : List PodInfo) :
    (∀ p ∈ (collectPods l).1, gangOf p = none ∧ p.waiting_on_deletion = false) ∧
    (∀ gps ∈ (collectPods l).2, gps.2 ≠ [] ∧
        ∀ q ∈ gps.2, gangOf q = some gps.1 ∧ q.waiting_on_deletion = false) := by
  suffices h : ∀ acc : List PodInfo × List (String × List PodInfo),
      (∀ p ∈ acc.1, gangOf p = none ∧ p.waiting_on_deletion = false) →
      (∀ gps ∈ acc.2, gps.2 ≠ [] ∧
          ∀ q ∈ gps.2, gangOf q = some gps.1 ∧ q.waiting_on_deletion = false) →
      (∀ p ∈ (l.foldl
          (fun acc p =>
            if p.waiting_on_deletion then acc
            else
              match gangOf p with
              | some g => (acc.1, gangAdd acc.2 g p)
              | none => (acc.1 ++ [p], acc.2)) acc).1,
          gangOf p = none ∧ p.waiting_on_deletion = false) ∧
      (∀ gps ∈ (l.foldl
          (fun acc p =>
            if p.waiting_on_deletion then acc
            else
              match gangOf p with
              | some g => (acc.1, gangAdd acc.2 g p)
              | none => (acc.1 ++ [p], acc.2)) acc).2,
          gps.2 ≠ [] ∧
          ∀ q ∈ gps.2, gangOf q = some gps.1 ∧ q.waiting_on_deletion = false) by
    exact h ([], []) (by simp) (by simp)
  induction l with
  | nil => intro acc h1 h2; exact ⟨h1, h2⟩
  | cons p rest ih =>
    intro acc h1 h2
    simp only [List.foldl_cons]
    by_cases hw : p.waiting_on_deletion
    · rw [if_pos hw]
      exact ih acc h1 h2
    · rw [if_neg hw]
      rcases hgo : gangOf p with _ | g
      · refine ih (acc.1 ++ [p], acc.2) (fun q hq => ?_) h2
        rcases List.mem_append.mp hq with hq | hq
        · exact h1 q hq
        · rw [List.mem_singleton] at hq
          subst hq
          exact ⟨hgo, by simpa using hw⟩
      · exact ih (acc.1, gangAdd acc.2 g p) h1 (gangAdd_inv hgo (by simpa using hw) h2)

theorem mem_gangUnitsOf {trans : List String} :
    ∀ {gl : List (String × List PodInfo)} {u : SchedulingUnit},
      u ∈ gangUnitsOf trans gl →
      ∃ gps ∈ gl, gps.1 ∉ trans ∧
        u = SchedulingUnit.mk gps.2 true (minPriority gps.2) (some gps.1) := by
  intro gl
  induction gl with
  | nil => intro u hu; simp [gangUnitsOf] at hu
  | cons hd rest ih =>
    intro u hu
    obtain ⟨g, ps⟩ := hd
    simp only [gangUnitsOf] at hu
    split_ifs at hu with h1 h2
    · obtain ⟨gps, hgps, hnt, hu⟩ := ih hu
      exact ⟨gps, List.mem_cons_of_mem _ hgps, hnt, hu⟩
    · obtain ⟨gps, hgps, hnt, hu⟩ := ih hu
      exact ⟨gps, List.mem_cons_of_mem _ hgps, hnt, hu⟩
    · rcases List.mem_cons.mp hu with rfl | hu
      · exact ⟨(g, ps), List.mem_cons_self _ _, h2, rfl⟩
      · obtain ⟨gps, hgps, hnt, hu⟩ := ih hu
        exact ⟨gps, List.mem_cons_of_mem _ hgps, hnt, hu⟩

theorem foldl_min_le_init (l : List PodInfo) :
    ∀ a : Int, l.foldl (fun m q => min m q.priority) a ≤ a := by
  induction l with
  | nil => intro a; simp
  | cons p rest ih =>
    intro a
    calc rest.foldl (fun m q => min m q.priority) (min a p.priority) ≤ min a p.priority :=
          ih _
      _ ≤ a := min_le_left _ _

theorem foldl_min_le_mem {q : PodInfo} (l : List PodInfo) :
    ∀ a : Int, q ∈ l → l.foldl (fun m q => min m q.priority) a ≤ q.priority := by
  induction l with
  | nil => intro a h; cases h
  | cons p rest ih =>
    intro a h
    rcases List.mem_cons.mp h with rfl | h
    · calc rest.foldl (fun m q => min m q.priority) (min a q.priority) ≤
            min a q.priority := foldl_min_le_init _ _
        _ ≤ q.priority := min_le_right _ _
    · exact ih _ h

theorem foldl_min_attained (l : List PodInfo) :
    ∀ a : Int, l.foldl (fun m q => min m q.priority) a = a ∨
      ∃ q ∈ l, l.foldl (fun m q => min m q.priority) a = q.priority := by
  induction l with
  | nil => intro a; exact Or.inl rfl
  | cons p rest ih =>
    intro a
    simp only [List.foldl_cons]
    rcases ih (min a p.priority) with h | ⟨q, hq, h⟩
    · rcases min_cases a p.priority with ⟨hm, _⟩ | ⟨hm, _⟩
      · exact Or.inl (h.trans hm)
      · exact Or.inr ⟨p, List.mem_cons_self _ _, h.trans hm⟩
    · exact Or.inr ⟨q, List.mem_cons_of_mem _ hq, h⟩

theorem minPriority_le {ps : List PodInfo} {q : PodInfo} (h : q ∈ ps) :
    minPriority ps ≤ q.priority := by
  cases ps with
  | nil => cases h
  | cons p rest =>
    simp only [minPriority]
    rcases List.mem_cons.mp h with rfl | h
    · exact foldl_min_le_init _ _
    · exact foldl_min_le_mem _ _ h

theorem minPriority_attained {ps : List PodInfo} (h : ps ≠ []) :
    ∃ q ∈ ps, minPriority ps = q.priority := by
  cases ps with
  | nil => simp at h
  | cons p rest =>
    simp only [minPriority]
    rcases foldl_min_attained rest p.priority with h1 | ⟨q, hq, h1⟩
    · exact ⟨p, List.mem_cons_self _ _, h1⟩
    · exact ⟨q, List.mem_cons_of_mem _ hq, h1⟩

/-- C3: the rebuilt scheduling queue is ordered by descending effective
priority with ties broken by ascending unit size, so at equal priority
units with fewer pods come first; every gang unit's effective_priority is
the minimum of its members' priorities, and every single-pod unit carries
its pod's own priority. -/
theorem c3_queue_order (s : SchedState) :
    (rebuildQueue s).Pairwise (fun u v =>
        u.effective_priority > v.effective_priority ∨
          (u.effective_priority = v.effective_priority ∧
            u.pods.length ≤ v.pods.length)) ∧
    (∀ u ∈ rebuildQueue s, u.is_gang = true →
        u.pods ≠ [] ∧ (∀ p ∈ u.pods, u.effective_priority ≤ p.priority) ∧
          ∃ p ∈ u.pods, u.effective_priority = p.priority) ∧
    (∀ u ∈ rebuildQueue s, u.is_gang = false →
        ∃ p, u.pods = [p] ∧ u.effective_priority = p.priority) := by
  refine ⟨?_, ?_, ?_⟩
  · exact (sortUnits_pairwise (buildUnits s)).imp fun hab => (ltb_false_iff _ _).mp hab
  · intro u hu hgang
    rw [rebuildQueue, mem_sortUnits] at hu
    rcases List.mem_append.mp hu with hu | hu
    · obtain ⟨p, _, rfl⟩ := List.mem_map.mp hu
      exact Bool.noConfusion hgang
    · obtain ⟨gps, hgps, hnt, rfl⟩ := mem_gangUnitsOf hu
      have hne : gps.2 ≠ [] := ((collectPods_inv _).2 gps hgps).1
      refine ⟨hne, fun p hp => minPriority_le hp, minPriority_attained hne⟩
  · intro u hu hsingle
    rw [rebuildQueue, mem_sortUnits] at hu
    rcases List.mem_append.mp hu with hu | hu
    · obtain ⟨p, _, rfl⟩ := List.mem_map.mp hu
      exact ⟨p, rfl, rfl⟩
    · obtain ⟨gps, hgps, hnt, rfl⟩ := mem_gangUnitsOf hu
      exact Bool.noConfusion hsingle

theorem assignedUids_cons_none (n : String) (L : List (String × Option String)) :
    assignedUids ((n, none) :: L) = assignedUids L := rfl

theorem assignedUids_cons_some (n u : String) (L : List (String × Option String)) :
    assignedUids ((n, some u) :: L) = u :: assignedUids L := rfl

theorem mem_assignedUids {x : String} {L : List (String × Option String)} :
    x ∈ assignedUids L ↔ ∃ m, (m, some x) ∈ L := by
  simp only [assignedUids, List.mem_filterMap]
  constructor
  · rintro ⟨⟨m, v⟩, hmem, hv⟩
    obtain rfl : v = some x := hv
    exact ⟨m, hmem⟩
  · rintro ⟨m, hm⟩
    exact ⟨(m, some x), hm, rfl⟩

theorem assignedUids_clearPodNode_sublist (u : String) :
    ∀ A : List (String × Option String),
      (assignedUids (clearPodNode A u)).Sublist (assignedUids A) := by
  intro A
  induction A with
  | nil => simp [clearPodNode]
  | cons kv rest ih =>
    obtain ⟨n, v⟩ := kv
    simp only [clearPodNode]
    split_ifs with h
    · obtain rfl : v = some u := h
      rw [assignedUids_cons_none, assignedUids_cons_some]
      exact List.Sublist.cons _ (List.Sublist.refl _)
    · cases v with
      | none =>
        rw [assignedUids_cons_none, assignedUids_cons_none]
        exact ih
      | some w =>
        rw [assignedUids_cons_some, assignedUids_cons_some]
        exact List.Sublist.cons₂ _ ih

theorem dictGet?_of_mem_nodup {α : Type} {m : String} {x : α} :
    ∀ {L : List (String × α)}, (L.map Prod.fst).Nodup → (m, x) ∈ L →
      dictGet? L m = some x := by
  intro L
  induction L with
  | nil => intro _ h; cases h
  | cons kv rest ih =>
    intro hnd hmem
    obtain ⟨k, v⟩ := kv
    rw [List.map_cons, List.nodup_cons] at hnd
    rcases List.mem_cons.mp hmem with heq | hmem
    · rw [Prod.mk.injEq] at heq
      obtain ⟨rfl, rfl⟩ := heq
      simp [dictGet?]
    · have hk : k ≠ m := by
        intro h
        subst h
        exact hnd.1 (List.mem_map.mpr ⟨_, hmem, rfl⟩)
      simp only [dictGet?, if_neg hk]
      exact ih hnd.2 hmem

theorem assignedUids_dictSet_mem {x u n : String} :
    ∀ {L : List (String × Option String)},
      x ∈ assignedUids (dictSet L n (some u)) → x = u ∨ x ∈ assignedUids L := by
  intro L
  induction L with
  | nil =>
    intro h
    rw [dictSet, assignedUids_cons_some] at h
    simp only [assignedUids, List.filterMap_nil, List.mem_singleton] at h
    exact Or.inl h
  | cons kv rest ih =>
    obtain ⟨k, v⟩ := kv
    simp only [dictSet]
    split_ifs with h
    · intro hx
      rw [assignedUids_cons_some] at hx
      rcases List.mem_cons.mp hx with rfl | hx
      · exact Or.inl rfl
      · cases v with
        | none =>
          rw [assignedUids_cons_none]
          exact Or.inr hx
        | some w =>
          rw [assignedUids_cons_some]
          exact Or.inr (List.mem_cons_of_mem _ hx)
    · intro hx
      cases v with
      | none =>
        rw [assignedUids_cons_none] at hx ⊢
        exact ih hx
      | some w =>
        rw [assignedUids_cons_some] at hx ⊢
        rcases List.mem_cons.mp hx with rfl | hx
        · exact Or.inr (List.mem_cons_self _ _)
        · rcases ih hx with h1 | h1
          · exact Or.inl h1
          · exact Or.inr (List.mem_cons_of_mem _ h1)

theorem nodup_assigned_dictSet_cond {u n : String} :
    ∀ {L : List (String × Option String)},
      (L.map Prod.fst).Nodup →
      (assignedUids L).Nodup →
      (∀ m, (m, some u) ∈ L → m = n) →
      (assignedUids (dictSet L n (some u))).Nodup := by
  intro L
  induction L with
  | nil => intro _ _ _; rw [dictSet, assignedUids_cons_some]; simp [assignedUids]
  | cons kv rest ih =>
    intro hA hnd hcond
    obtain ⟨k, v⟩ := kv
    rw [List.map_cons, List.nodup_cons] at hA
    simp only [dictSet]
    split_ifs with h
    · rw [assignedUids_cons_some, List.nodup_cons]
      constructor
      · intro hu
        obtain ⟨m, hm⟩ := mem_assignedUids.mp hu
        have hmn : m = n := hcond m (List.mem_cons_of_mem _ hm)
        have hk : k = m := by rw [h, hmn]
        exact hA.1 (by rw [hk]; exact List.mem_map.mpr ⟨_, hm, rfl⟩)
      · cases v with
        | none => rwa [assignedUids_cons_none] at hnd
        | some w =>
          rw [assignedUids_cons_some] at hnd
          exact (List.nodup_cons.mp hnd).2
    · cases v with
      | none =>
        rw [assignedUids_cons_none] at hnd ⊢
        exact ih hA.2 hnd (fun m hm => hcond m (List.mem_cons_of_mem _ hm))
      | some w =>
        rw [assignedUids_cons_some] at hnd ⊢
        rw [List.nodup_cons] at hnd ⊢
        refine ⟨?_, ih hA.2 hnd.2 (fun m hm => hcond m (List.mem_cons_of_mem _ hm))⟩
        intro hw
        rcases assignedUids_dictSet_mem hw with rfl | hw
        · exact h (hcond k (List.mem_cons_self _ _))
        · exact hnd.1 hw

theorem getPodNode_none_iff {u : String} :
    ∀ {A : List (String × Option String)},
      getPodNode A u = none ↔ u ∉ assignedUids A := by
  intro A
  induction A with
  | nil => simp [getPodNode, assignedUids]
  | cons kv rest ih =>
    obtain ⟨n, v⟩ := kv
    simp only [getPodNode]
    split_ifs with h
    · obtain rfl : v = some u := h
      rw [assignedUids_cons_some]
      simp
    · cases v with
      | none =>
        rw [assignedUids_cons_none]
        exact ih
      | some w =>
        rw [assignedUids_cons_some]
        have hw : ¬(u = w) := fun hh => h (by rw [hh])
        simp [ih, hw]

theorem nodup_assigned_dictSet_fresh {u n : String} :
    ∀ {L : List (String × Option String)},
      u ∉ assignedUids L → (assignedUids L).Nodup →
      (assignedUids (dictSet L n (some u))).Nodup := by
  intro L
  induction L with
  | nil => intro _ _; rw [dictSet, assignedUids_cons_some]; simp [assignedUids]
  | cons kv rest ih =>
    intro hu hnd
    obtain ⟨k, v⟩ := kv
    simp only [dictSet]
    split_ifs with h
    · rw [assignedUids_cons_some, List.nodup_cons]
      cases v with
      | none =>
        rw [assignedUids_cons_none] at hu hnd
        exact ⟨hu, hnd⟩
      | some w =>
        rw [assignedUids_cons_some] at hu hnd
        rw [List.nodup_cons] at hnd
        exact ⟨fun hh => hu (List.mem_cons_of_mem _ hh), hnd.2⟩
    · cases v with
      | none =>
        rw [assignedUids_cons_none] at hu hnd ⊢
        exact ih hu hnd
      | some w =>
        rw [assignedUids_cons_some] at hu hnd ⊢
        rw [List.nodup_cons] at hnd ⊢
        refine ⟨?_, ih (fun hh => hu (List.mem_cons_of_mem _ hh)) hnd.2⟩
        intro hw
        rcases assignedUids_dictSet_mem hw with rfl | hw
        · exact hu (List.mem_cons_self _ _)
        · exact hnd.1 hw

theorem doPreempts_assigned_sublist (P : List String) :
    ∀ (A : List (String × Option String)) (pods : List (String × PodInfo))
      (t : List String),
      (assignedUids (doPreempts P A pods t).1).Sublist (assignedUids A) := by
  intro A
  induction A with
  | nil => intro pods t; simp [doPreempts]
  | cons kv rest ih =>
    intro pods t
    obtain ⟨n, v⟩ := kv
    cases v with
    | none =>
      simp only [doPreempts]
      rw [assignedUids_cons_none, assignedUids_cons_none]
      exact ih pods t
    | some uid =>
      simp only [doPreempts]
      split_ifs with h
      · cases hg : dictGet? pods uid with
        | some pinfo =>
          simp only [hg]
          rw [assignedUids_cons_none, assignedUids_cons_some]
          exact List.Sublist.cons _ (ih _ _)
        | none =>
          simp only [hg]
          rw [assignedUids_cons_none, assignedUids_cons_some]
          exact List.Sublist.cons _ (ih _ _)
      · rw [assignedUids_cons_some, assignedUids_cons_some]
        exact List.Sublist.cons₂ _ (ih _ _)

theorem checkGangReformation_A (g : String) (s : SchedState) :
    (checkGangReformation g s).node_assignments = s.node_assignments := by
  simp only [checkGangReformation]
  split_ifs <;> rfl

theorem checkGangReformation_pods (g : String) (s : SchedState) :
    (checkGangReformation g s).all_pods = s.all_pods := by
  simp only [checkGangReformation]
  split_ifs <;> rfl

theorem addedMutate_A_none (pod : PodInfo) (s : SchedState) :
    (addedMutate pod none s).node_assignments = s.node_assignments := by
  rcases hgo : gangOf pod with _ | g
  · simp only [addedMutate, hgo]
  · simp only [addedMutate, hgo]
    split_ifs with h
    · rw [checkGangReformation_A]
    · rfl

theorem addedMutate_A_some (pod : PodInfo) (n : String) (s : SchedState) :
    (addedMutate pod (some n) s).node_assignments =
      (if n ≠ "" ∧ dictHas s.node_assignments n = true then
        dictSet s.node_assignments n (some pod.uid)
      else s.node_assignments) := by
  rcases hgo : gangOf pod with _ | g
  · simp only [addedMutate, hgo]
  · simp only [addedMutate, hgo]
    split_ifs <;> simp [checkGangReformation_A]

/-- C5 counterexample: after initialize(nodes=[node-1, node-2],
existing=[p@node-1]), the event ADDED p with node_name node-2 leaves uid p
as the assigned value of both node-1 and node-2 (the old assignment is
never cleared), so the claimed invariant fails. -/
theorem c5_counterexample :
    (handleEvent (addedEvent pDict2) c5State).map (fun r => r.1.node_assignments) =
      Except.ok [("node-1", some "p"), ("node-2", some "p")] ∧
    ¬ (assignedUids [("node-1", some "p"), ("node-2", some "p")]).Nodup :=
  ⟨by rfl, by decide⟩


/-- C7 counterexample: a well-formed MODIFIED event whose pod is known but
whose node_name is not a tracked node raises (the dict lookup
self.node_assignments[node_name] on line 177 has no key), instead of
returning an empty action list. -/
theorem c7_counterexample :
    handleEvent c7Event c1State =
      Except.error "KeyError: node_name not in node_assignments" := by
  rfl

/-- C7 amended: handle_event returns normally for every well-formed event
except exactly a MODIFIED event whose pod uid is in the pod table and
whose truthy node_name is not a tracked node; that single case raises the
dict KeyError of line 177 and propagates. -/
theorem c7_no_raise_amended (e : Event) (s : SchedState) :
    (handleEvent e s).isOk = true ↔
      ¬ (e.event_type = EventType.MODIFIED ∧
          dictHas s.all_pods e.pod.uid = true ∧
          ∃ n, e.pod.node_name = some n ∧ n ≠ "" ∧
            dictHas s.node_assignments n = false) := by
  obtain ⟨et, d⟩ := e
  obtain ⟨du, dn, dns, dp, dg, dnn⟩ := d
  cases et with
  | DELETED => simp [handleEvent, Except.isOk, Except.toBool]
  | ADDED => simp [handleEvent, Except.isOk, Except.toBool]
  | MODIFIED =>
    simp only [handleEvent]
    by_cases h1 : dictHas s.all_pods (mkPod ⟨du, dn, dns, dp, dg, dnn⟩).uid = false
    · rw [if_pos h1]
      refine iff_of_true rfl ?_
      rintro ⟨-, htrue, -⟩
      have : (false : Bool) = true := by
        rw [← h1]
        exact htrue
      exact Bool.noConfusion this
    · rw [if_neg h1]
      cases dnn with
      | none =>
        refine iff_of_true rfl ?_
        rintro ⟨-, -, n, hn, -⟩
        exact Option.noConfusion hn
      | some n =>
        dsimp only
        by_cases h2 : n = ""
        · rw [if_pos h2]
          refine iff_of_true rfl ?_
          rintro ⟨-, -, n', hn', hne, -⟩
          rw [Option.some.injEq] at hn'
          exact hne (hn' ▸ h2)
        · rw [if_neg h2]
          cases hg : dictGet? s.node_assignments n with
          | none =>
            refine iff_of_false (fun h => Bool.noConfusion h) (not_not_intro ?_)
            refine ⟨by trivial, ?_, n, by trivial, h2, by simp [dictHas, hg]⟩
            cases hh : dictHas s.all_pods du with
            | true => rfl
            | false => exact absurd hh h1
          | some v =>
            dsimp only
            by_cases h3 : v = some (mkPod ⟨du, dn, dns, dp, dg, some n⟩).uid
            · rw [if_pos h3]
              refine iff_of_true rfl ?_
              rintro ⟨-, -, n', hn', -, hfalse⟩
              rw [Option.some.injEq] at hn'
              subst hn'
              rw [dictHas, hg] at hfalse
              exact Bool.noConfusion hfalse
            · rw [if_neg h3]
              refine iff_of_true rfl ?_
              rintro ⟨-, -, n', hn', -, hfalse⟩
              rw [Option.some.injEq] at hn'
              subst hn'
              rw [dictHas, hg] at hfalse
              exact Bool.noConfusion hfalse

theorem mem_setAdd_of_mem {t : List String} {x y : String} (h : x ∈ t) :
    x ∈ setAdd t y := by
  unfold setAdd
  split_ifs with hh
  · exact h
  · exact List.mem_append_left _ h

theorem mem_setDiscard {t : List String} {x y : String} :
    x ∈ setDiscard t y ↔ x ∈ t ∧ x ≠ y := by
  simp [setDiscard, List.mem_filter, bne_iff_ne]

theorem doPreempts_trans_mono (P : List String) {x : String} :
    ∀ (A : List (String × Option String)) (pods : List (String × PodInfo))
      (t : List String), x ∈ t → x ∈ (doPreempts P A pods t).2.2.1 := by
  intro A
  induction A with
  | nil => intro pods t h; exact h
  | cons kv rest ih =>
    intro pods t h
    obtain ⟨n, v⟩ := kv
    cases v with
    | none =>
      simp only [doPreempts]
      exact ih _ _ h
    | some uid =>
      simp only [doPreempts]
      split_ifs with h1
      · cases hgt : dictGet? pods uid with
        | some pinfo =>
          simp only [hgt]
          apply ih
          cases hgo : gangOf pinfo with
          | none => simpa only [hgo] using h
          | some g0 => simp only [hgo]; exact mem_setAdd_of_mem h
        | none =>
          simp only [hgt]
          exact ih _ _ h
      · exact ih _ _ h

theorem pipeline_trans_mono {s : SchedState} {x : String}
    (h : x ∈ s.gangs_in_transition) : x ∈ (pipelineRun s).1.gangs_in_transition := by
  simp only [pipelineRun, planToActions]
  exact doPreempts_trans_mono _ _ _ _ h

theorem checkGang_trans_sub (g : String) (s : SchedState) :
    (checkGangReformation g s).gangs_in_transition = s.gangs_in_transition ∨
      (checkGangReformation g s).gangs_in_transition =
        setDiscard s.gangs_in_transition g := by
  unfold checkGangReformation
  dsimp only
  split_ifs with h1 h2
  · exact Or.inl rfl
  · exact Or.inl rfl
  · exact Or.inr rfl

theorem checkGang_trans_eq (g : String) (s1 s2 : SchedState)
    (hp : s1.all_pods = s2.all_pods)
    (ht : s1.gangs_in_transition = s2.gangs_in_transition) :
    (checkGangReformation g s1).gangs_in_transition =
      (checkGangReformation g s2).gangs_in_transition := by
  unfold checkGangReformation
  rw [hp, ht]
  dsimp only
  split_ifs with h1 h2
  · exact ht
  · exact ht
  · rfl

theorem checkGang_removes_iff (g : String) (s : SchedState)
    (hg : g ∈ s.gangs_in_transition) :
    g ∉ (checkGangReformation g s).gangs_in_transition ↔
      gangMembers s.all_pods g ≠ [] ∧
        ∀ p ∈ gangMembers s.all_pods g, p.waiting_on_deletion = false := by
  unfold checkGangReformation gangMembers
  dsimp only
  split_ifs with h1 h2
  · refine iff_of_false (not_not_intro hg) ?_
    rintro ⟨-, hall⟩
    obtain ⟨p, hp, hw⟩ := List.any_eq_true.mp h1
    rw [hall p hp] at hw
    exact Bool.noConfusion hw
  · refine iff_of_false (not_not_intro hg) ?_
    rintro ⟨hne, -⟩
    exact hne (List.length_eq_zero.mp h2)
  · refine iff_of_true ?_ ?_
    · rw [mem_setDiscard]
      rintro ⟨-, hne⟩
      exact hne rfl
    · refine ⟨fun hnil => h2 (by rw [hnil]; rfl), fun p hp => ?_⟩
      cases hw : p.waiting_on_deletion with
      | false => rfl
      | true => exact absurd (List.any_eq_true.mpr ⟨p, hp, hw⟩) h1

theorem addedMutate_trans (pod : PodInfo) (nn : Option String) (s : SchedState) :
    (addedMutate pod nn s).gangs_in_transition =
      (match gangOf pod with
       | some g0 =>
         if g0 ∈ s.gangs_in_transition then
           (checkGangReformation g0
             ⟨s.node_assignments, dictSet s.all_pods pod.uid pod,
              s.gangs_in_transition⟩).gangs_in_transition
         else s.gangs_in_transition
       | none => s.gangs_in_transition) := by
  rcases hgo : gangOf pod with _ | g0
  · simp only [addedMutate, hgo]
  · simp only [addedMutate, hgo]
    split_ifs with h
    · exact checkGang_trans_eq _ _ _ rfl rfl
    · rfl

theorem gangOf_eq_some {p : PodInfo} {g : String} (h : gangOf p = some g) :
    p.gang_name = some g := by
  unfold gangOf at h
  cases hg : p.gang_name with
  | none => rw [hg] at h; cases h
  | some g1 =>
    rw [hg] at h
    dsimp only at h
    split_ifs at h with h1
    exact h

/-- C8: while gang g is in transition, (i) g can only leave
gangs_in_transition through an ADDED event for a pod of gang g whose
reformation re-check finds at least one member in the pod table and no
member waiting on deletion (matching by gang name and membership, not by
uid), (ii) the re-check function removes g exactly under those
conditions, and (iii) until removed, the rebuilt queue emits no unit
containing a pod of gang g. -/
theorem c8_gang_transition (s : SchedState) (g : String)
    (hg : g ∈ s.gangs_in_transition) :
    (∀ e s' acts, handleEvent e s = Except.ok (s', acts) →
        g ∉ s'.gangs_in_transition →
        e.event_type = EventType.ADDED ∧ e.pod.gang_name = some g ∧
          gangMembers (dictSet s.all_pods e.pod.uid (mkPod e.pod)) g ≠ [] ∧
          ∀ p ∈ gangMembers (dictSet s.all_pods e.pod.uid (mkPod e.pod)) g,
            p.waiting_on_deletion = false) ∧
    (g ∉ (checkGangReformation g s).gangs_in_transition ↔
        gangMembers s.all_pods g ≠ [] ∧
          ∀ p ∈ gangMembers s.all_pods g, p.waiting_on_deletion = false) ∧
    (∀ u ∈ rebuildQueue s, ∀ p ∈ u.pods, gangOf p ≠ some g) := by
  refine ⟨?_, checkGang_removes_iff g s hg, ?_⟩
  · rintro ⟨et, d⟩ s' acts hok hnot
    obtain ⟨du, dn, dns, dp, dg, dnn⟩ := d
    cases et with
    | DELETED =>
      exfalso
      apply hnot
      simp only [handleEvent] at hok
      rw [Except.ok.injEq] at hok
      have hmono := pipeline_trans_mono
        (s := handleDeleted (mkPod ⟨du, dn, dns, dp, dg, dnn⟩) s) (x := g) hg
      rw [hok] at hmono
      simpa using hmono
    | MODIFIED =>
      exfalso
      apply hnot
      simp only [handleEvent] at hok
      by_cases h1 : dictHas s.all_pods (mkPod ⟨du, dn, dns, dp, dg, dnn⟩).uid = false
      · rw [if_pos h1, Except.ok.injEq, Prod.mk.injEq] at hok
        rw [← hok.1]
        exact hg
      · rw [if_neg h1] at hok
        revert hok
        cases dnn with
        | none =>
          intro hok
          dsimp only at hok
          rw [Except.ok.injEq, Prod.mk.injEq] at hok
          rw [← hok.1]
          exact hg
        | some n =>
          intro hok
          dsimp only at hok
          by_cases h2 : n = ""
          · rw [if_pos h2, Except.ok.injEq, Prod.mk.injEq] at hok
            rw [← hok.1]
            exact hg
          · rw [if_neg h2] at hok
            cases hgt : dictGet? s.node_assignments n with
            | none =>
              rw [hgt] at hok
              exact absurd hok (by simp)
            | some v =>
              rw [hgt] at hok
              dsimp only at hok
              by_cases h3 : v = some (mkPod ⟨du, dn, dns, dp, dg, some n⟩).uid
              · rw [if_pos h3, Except.ok.injEq] at hok
                have hmono := pipeline_trans_mono (s := s) (x := g) hg
                rw [hok] at hmono
                simpa using hmono
              · rw [if_neg h3, Except.ok.injEq, Prod.mk.injEq] at hok
                rw [← hok.1]
                exact hg
    | ADDED =>
      simp only [handleEvent] at hok
      rw [Except.ok.injEq] at hok
      have hmt : g ∉ (addedMutate (mkPod ⟨du, dn, dns, dp, dg, dnn⟩)
          dnn s).gangs_in_transition := by
        intro hmem
        apply hnot
        have hmono := pipeline_trans_mono hmem
        rw [hok] at hmono
        simpa using hmono
      rw [addedMutate_trans] at hmt
      rcases hgo : gangOf (mkPod ⟨du, dn, dns, dp, dg, dnn⟩) with _ | g0
      · rw [hgo] at hmt
        exact absurd hg hmt
      · rw [hgo] at hmt
        dsimp only at hmt
        by_cases hin : g0 ∈ s.gangs_in_transition
        · rw [if_pos hin] at hmt
          rcases checkGang_trans_sub g0
              ⟨s.node_assignments,
               dictSet s.all_pods (mkPod ⟨du, dn, dns, dp, dg, dnn⟩).uid
                 (mkPod ⟨du, dn, dns, dp, dg, dnn⟩),
               s.gangs_in_transition⟩ with hcase | hcase
          · rw [hcase] at hmt
            exact absurd hg hmt
          · have hgg0 : g = g0 := by
              by_contra hne
              rw [hcase] at hmt
              exact hmt (mem_setDiscard.mpr ⟨hg, hne⟩)
            subst hgg0
            have hcond := (checkGang_removes_iff g
                ⟨s.node_assignments,
                 dictSet s.all_pods (mkPod ⟨du, dn, dns, dp, dg, dnn⟩).uid
                   (mkPod ⟨du, dn, dns, dp, dg, dnn⟩),
                 s.gangs_in_transition⟩ hg).mp hmt
            exact ⟨rfl, gangOf_eq_some hgo, hcond.1, hcond.2⟩
        · rw [if_neg hin] at hmt
          exact absurd hg hmt
  · intro u hu p hp
    rw [rebuildQueue, mem_sortUnits] at hu
    rcases List.mem_append.mp hu with hu | hu
    · obtain ⟨q, hq, rfl⟩ := List.mem_map.mp hu
      have hq1 := ((collectPods_inv _).1 q hq).1
      have hpq : p = q := List.mem_singleton.mp hp
      rw [hpq, hq1]
      exact fun h => Option.noConfusion h
    · obtain ⟨gps, hgps, hnt, rfl⟩ := mem_gangUnitsOf hu
      have hmem := ((collectPods_inv _).2 gps hgps).2 p hp
      intro hcontra
      rw [hmem.1, Option.some.injEq] at hcontra
      rw [hcontra] at hnt
      exact hnt hg

/-- Witness for C8 at a concrete state: gang A in transition with one
waiting member. -/
theorem c8_gang_transition_witness :
    "A" ∈ c8S.gangs_in_transition ∧
    ((∀ e s' acts, handleEvent e c8S = Except.ok (s', acts) →
        "A" ∉ s'.gangs_in_transition →
        e.event_type = EventType.ADDED ∧ e.pod.gang_name = some "A" ∧
          gangMembers (dictSet c8S.all_pods e.pod.uid (mkPod e.pod)) "A" ≠ [] ∧
          ∀ p ∈ gangMembers (dictSet c8S.all_pods e.pod.uid (mkPod e.pod)) "A",
            p.waiting_on_deletion = false) ∧
     ("A" ∉ (checkGangReformation "A" c8S).gangs_in_transition ↔
        gangMembers c8S.all_pods "A" ≠ [] ∧
          ∀ p ∈ gangMembers c8S.all_pods "A", p.waiting_on_deletion = false) ∧
     (∀ u ∈ rebuildQueue c8S, ∀ p ∈ u.pods, gangOf p ≠ some "A")) :=
  ⟨by decide, c8_gang_transition c8S "A" (by decide)⟩

theorem dictGet?_dictSet_self {α : Type} (k : String) (v : α) :
    ∀ L : List (String × α), dictGet? (dictSet L k v) k = some v := by
  intro L
  induction L with
  | nil => simp [dictSet, dictGet?]
  | cons kv rest ih =>
    obtain ⟨k0, v0⟩ := kv
    simp only [dictSet]
    split_ifs with h
    · simp [dictGet?, h]
    · simp only [dictGet?, if_neg h]
      exact ih

theorem addedMutate_pods (pod : PodInfo) (nn : Option String) (s : SchedState) :
    (addedMutate pod nn s).all_pods = dictSet s.all_pods pod.uid pod := by
  rcases hgo : gangOf pod with _ | g0
  · simp only [addedMutate, hgo]
  · simp only [addedMutate, hgo]
    split_ifs with h
    · rw [checkGangReformation_pods]
    · rfl

theorem mem_snd_dictSet {α : Type} (k : String) (v : α) :
    ∀ L : List (String × α), v ∈ (dictSet L k v).map Prod.snd := by
  intro L
  induction L with
  | nil => simp [dictSet]
  | cons kv rest ih =>
    obtain ⟨k0, v0⟩ := kv
    simp only [dictSet]
    split_ifs with h
    · simp
    · rw [List.map_cons]
      exact List.mem_cons_of_mem _ ih

theorem mem_collect_singles {p : PodInfo} (hgo : gangOf p = none)
    (hw : p.waiting_on_deletion = false) :
    ∀ (l : List PodInfo), p ∈ l → p ∈ (collectPods l).1 := by
  suffices h : ∀ (l : List PodInfo) (acc : List PodInfo × List (String × List PodInfo)),
      p ∈ l ∨ p ∈ acc.1 →
      p ∈ (l.foldl
        (fun acc p =>
          if p.waiting_on_deletion then acc
          else
            match gangOf p with
            | some g => (acc.1, gangAdd acc.2 g p)
            | none => (acc.1 ++ [p], acc.2)) acc).1 by
    intro l hl
    exact h l ([], []) (Or.inl hl)
  intro l
  induction l with
  | nil =>
    intro acc h
    rcases h with h | h
    · cases h
    · exact h
  | cons q rest ih =>
    intro acc h
    simp only [List.foldl_cons]
    by_cases hqw : q.waiting_on_deletion
    · rw [if_pos hqw]
      apply ih
      rcases h with h | h
      · rcases List.mem_cons.mp h with rfl | h
        · rw [hw] at hqw
          exact absurd hqw (by simp)
        · exact Or.inl h
      · exact Or.inr h
    · rw [if_neg hqw]
      rcases hqg : gangOf q with _ | g
      · exact ih (acc.1 ++ [q], acc.2)
          (by
            rcases h with h | h
            · rcases List.mem_cons.mp h with rfl | h
              · exact Or.inr (List.mem_append_right _ (List.mem_singleton.mpr rfl))
              · exact Or.inl h
            · exact Or.inr (List.mem_append_left _ h))
      · exact ih (acc.1, gangAdd acc.2 g q)
          (by
            rcases h with h | h
            · rcases List.mem_cons.mp h with rfl | h
              · rw [hgo] at hqg
                exact Option.noConfusion hqg
              · exact Or.inl h
            · exact Or.inr h)

theorem mem_buildUnits_single {s : SchedState} {p : PodInfo}
    (hmem : p ∈ s.all_pods.map Prod.snd) (hgo : gangOf p = none)
    (hw : p.waiting_on_deletion = false) :
    SchedulingUnit.mk [p] false p.priority none ∈ buildUnits s := by
  unfold buildUnits
  refine List.mem_append_left _ ?_
  exact List.mem_map.mpr ⟨p, mem_collect_singles hgo hw _ hmem, rfl⟩

/-- C10: an ADDED event for a pod whose stored record is waiting on
deletion replaces the record with a fresh one with
waiting_on_deletion = false, and the plan that produces this call's
actions is computed on that mutated table, where (for a gangless pod) a
unit for the pod is emitted again even though the preemption deletion has
not been observed. -/
theorem c10_added_resets_waiting (s : SchedState) (e : Event) (p0 : PodInfo)
    (het : e.event_type = EventType.ADDED)
    (hp : dictGet? s.all_pods e.pod.uid = some p0)
    (hw : p0.waiting_on_deletion = true) :
    handleEvent e s =
        Except.ok (pipelineRun (addedMutate (mkPod e.pod) e.pod.node_name s)) ∧
    dictGet? (addedMutate (mkPod e.pod) e.pod.node_name s).all_pods e.pod.uid =
        some (mkPod e.pod) ∧
    (mkPod e.pod).waiting_on_deletion = false ∧
    (gangOf (mkPod e.pod) = none →
      SchedulingUnit.mk [mkPod e.pod] false (mkPod e.pod).priority none ∈
        rebuildQueue (addedMutate (mkPod e.pod) e.pod.node_name s)) := by
  obtain ⟨et, d⟩ := e
  have het' : et = EventType.ADDED := het
  subst het'
  refine ⟨rfl, ?_, rfl, ?_⟩
  · rw [addedMutate_pods]
    exact dictGet?_dictSet_self _ _ _
  · intro hgo
    rw [rebuildQueue, mem_sortUnits]
    refine mem_buildUnits_single ?_ hgo rfl
    rw [addedMutate_pods]
    exact mem_snd_dictSet _ _ _

/-- Witness for C10: redelivering the preempted pod low (fresh, no node)
into the post-preemption state makes it schedulable again. -/
theorem c10_added_resets_waiting_witness :
    (dictGet? c10S.all_pods (addedEvent lowNoNode).pod.uid =
        some { uid := "low", name := "low", namespace_ := "default",
               priority := 10, gang_name := none, waiting_on_deletion := true } ∧
      ({ uid := "low", name := "low", namespace_ := "default", priority := 10,
         gang_name := none, waiting_on_deletion := true } : PodInfo).waiting_on_deletion
        = true) ∧
    (handleEvent (addedEvent lowNoNode) c10S =
        Except.ok (pipelineRun
          (addedMutate (mkPod (addedEvent lowNoNode).pod)
            (addedEvent lowNoNode).pod.node_name c10S)) ∧
      dictGet? (addedMutate (mkPod (addedEvent lowNoNode).pod)
          (addedEvent lowNoNode).pod.node_name c10S).all_pods
          (addedEvent lowNoNode).pod.uid = some (mkPod (addedEvent lowNoNode).pod) ∧
      (mkPod (addedEvent lowNoNode).pod).waiting_on_deletion = false ∧
      (gangOf (mkPod (addedEvent lowNoNode).pod) = none →
        SchedulingUnit.mk [mkPod (addedEvent lowNoNode).pod] false
            (mkPod (addedEvent lowNoNode).pod).priority none ∈
          rebuildQueue (addedMutate (mkPod (addedEvent lowNoNode).pod)
            (addedEvent lowNoNode).pod.node_name c10S))) :=
  ⟨⟨by decide, by decide⟩,
    c10_added_resets_waiting c10S (addedEvent lowNoNode)
      { uid := "low", name := "low", namespace_ := "default", priority := 10,
        gang_name := none, waiting_on_deletion := true }
      rfl (by decide) (by decide)⟩

/-- C9 counterexample: replaying the same ADDED event (a stale record
binding the low-priority pod lo to node-1) twice in succession returns
the same non-empty action list both times: the second call re-asserts the
stale assignment, and the engine preempts and re-binds again. -/
theorem c9_counterexample :
    ((handleEvent (addedEvent loDict) c9S0).bind
        (fun r => handleEvent (addedEvent loDict) r.1)).map Prod.snd =
      Except.ok [Action.preempt "lo" "lo" "default",
                 Action.bind "hi" "hi" "default" "node-1"] ∧
    [Action.preempt "lo" "lo" "default",
     Action.bind "hi" "hi" "default" "node-1"] ≠ ([] : List Action) :=
  ⟨by rfl, by decide⟩

/-! ### Dictionary and list infrastructure for the quiescence theorems -/

theorem dictGet?_dictSet_ne {α : Type} {k k' : String} (hne : k ≠ k') (v : α) :
    ∀ L : List (String × α), dictGet? (dictSet L k v) k' = dictGet? L k' := by
  intro L
  induction L with
  | nil => simp [dictSet, dictGet?, hne]
  | cons kv rest ih =>
    obtain ⟨k0, v0⟩ := kv
    simp only [dictSet]
    split_ifs with h
    · subst h
      simp [dictGet?, hne]
    · simp only [dictGet?]
      split_ifs with h0
      · rfl
      · exact ih

theorem dictSet_keys_of_has {α : Type} {k : String} (v : α) :
    ∀ {L : List (String × α)}, dictHas L k = true →
      (dictSet L k v).map Prod.fst = L.map Prod.fst := by
  intro L
  induction L with
  | nil => intro h; simp [dictHas, dictGet?] at h
  | cons kv rest ih =>
    intro h
    obtain ⟨k0, v0⟩ := kv
    simp only [dictSet]
    split_ifs with h0
    · simp
    · rw [List.map_cons, List.map_cons, ih]
      rw [dictHas, dictGet?, if_neg h0] at h
      exact h

theorem dictHas_iff_mem_keys {α : Type} {k : String} :
    ∀ {L : List (String × α)}, dictHas L k = true ↔ k ∈ L.map Prod.fst := by
  intro L
  induction L with
  | nil => simp [dictHas, dictGet?]
  | cons kv rest ih =>
    obtain ⟨k0, v0⟩ := kv
    rw [dictHas, dictGet?]
    split_ifs with h
    · subst h
      simp
    · rw [List.map_cons, List.mem_cons]
      rw [dictHas] at ih
      rw [ih]
      have : ¬ k = k0 := fun hh => h hh.symm
      tauto

theorem mem_dictSet {α : Type} {k : String} {v : α} {kv' : String × α} :
    ∀ {L : List (String × α)}, kv' ∈ dictSet L k v → kv' ∈ L ∨ kv'.2 = v := by
  intro L
  induction L with
  | nil =>
    intro h
    rw [dictSet, List.mem_singleton] at h
    subst h
    exact Or.inr rfl
  | cons kv rest ih =>
    obtain ⟨k0, v0⟩ := kv
    simp only [dictSet]
    split_ifs with h
    · intro hm
      rcases List.mem_cons.mp hm with rfl | hm
      · exact Or.inr rfl
      · exact Or.inl (List.mem_cons_of_mem _ hm)
    · intro hm
      rcases List.mem_cons.mp hm with rfl | hm
      · exact Or.inl (List.mem_cons_self _ _)
      · rcases ih hm with h1 | h1
        · exact Or.inl (List.mem_cons_of_mem _ h1)
        · exact Or.inr h1

theorem mem_of_dictGet? {α : Type} {k : String} {v : α} :
    ∀ {L : List (String × α)}, dictGet? L k = some v → (k, v) ∈ L := by
  intro L
  induction L with
  | nil => intro h; cases h
  | cons kv rest ih =>
    obtain ⟨k0, v0⟩ := kv
    rw [dictGet?]
    split_ifs with h
    · intro hv
      rw [Option.some.injEq] at hv
      subst h
      subst hv
      exact List.mem_cons_self _ _
    · intro hv
      exact List.mem_cons_of_mem _ (ih hv)

theorem clearPodNode_noop {uid : String} :
    ∀ {A : List (String × Option String)},
      (∀ kv ∈ A, kv.2 ≠ some uid) → clearPodNode A uid = A := by
  intro A
  induction A with
  | nil => intro _; rfl
  | cons kv rest ih =>
    intro h
    obtain ⟨n, v⟩ := kv
    rw [clearPodNode]
    rw [if_neg (h (n, v) (List.mem_cons_self _ _))]
    rw [ih (fun x hx => h x (List.mem_cons_of_mem _ hx))]

theorem markWaiting_nil_uids (pods : List (String × PodInfo)) :
    markWaiting [] pods = pods := by
  induction pods with
  | nil => rfl
  | cons kv rest ih =>
    rw [markWaiting, List.map_cons]
    rw [markWaiting] at ih
    rw [ih]
    simp

theorem markWaiting_keys (B : List String) (pods : List (String × PodInfo)) :
    (markWaiting B pods).map Prod.fst = pods.map Prod.fst := by
  induction pods with
  | nil => rfl
  | cons kv rest ih =>
    rw [markWaiting, List.map_cons, List.map_cons, List.map_cons]
    rw [markWaiting] at ih
    rw [ih]
    split_ifs <;> rfl

theorem mem_insertStr {x y : String} :
    ∀ {l : List String}, x ∈ insertStr y l ↔ x = y ∨ x ∈ l := by
  intro l
  induction l with
  | nil => simp [insertStr]
  | cons z rest ih =>
    simp only [insertStr]
    split_ifs with h
    · simp [List.mem_cons]
    · rw [List.mem_cons, List.mem_cons, ih]
      tauto

theorem sortStrings_perm (l : List String) : (sortStrings l).Perm l := by
  suffices h : ∀ acc : List String,
      (l.foldl (fun acc x => insertStr x acc) acc).Perm (l ++ acc) by
    simpa [sortStrings] using h []
  induction l with
  | nil => intro acc; simp
  | cons x rest ih =>
    intro acc
    rw [List.foldl_cons]
    refine (ih (insertStr x acc)).trans ?_
    have hperm : (insertStr x acc).Perm (x :: acc) := by
      clear ih
      induction acc with
      | nil => simp [insertStr]
      | cons z zs ihz =>
        rw [insertStr]
        split_ifs with hz
        · exact List.Perm.refl _
        · exact (List.Perm.cons z ihz).trans (List.Perm.swap x z zs)
    refine (List.Perm.append_left rest hperm).trans ?_
    exact List.perm_middle

theorem mem_setAdd_iff {t : List String} {x y : String} :
    x ∈ setAdd t y ↔ x ∈ t ∨ x = y := by
  unfold setAdd
  split_ifs with h
  · constructor
    · exact Or.inl
    · rintro (hx | rfl)
      · exact hx
      · exact h
  · rw [List.mem_append, List.mem_singleton]

theorem gangOf_mark (r : PodInfo) :
    gangOf { r with waiting_on_deletion := true } = gangOf r := rfl

theorem dictHas_eq_of_keys {α β : Type} {L1 : List (String × α)}
    {L2 : List (String × β)} (h : L1.map Prod.fst = L2.map Prod.fst) (x : String) :
    dictHas L1 x = dictHas L2 x := by
  cases h1 : dictHas L1 x with
  | true =>
    rw [dictHas_iff_mem_keys, h, ← dictHas_iff_mem_keys] at h1
    exact h1.symm
  | false =>
    cases h2 : dictHas L2 x with
    | false => rfl
    | true =>
      rw [dictHas_iff_mem_keys, ← h, ← dictHas_iff_mem_keys] at h2
      rw [h1] at h2
      exact h2

theorem doPreempts_A (P : List String) :
    ∀ (A : List (String × Option String)) (pods : List (String × PodInfo))
      (t : List String),
      (doPreempts P A pods t).1 =
        A.map (fun kv =>
          match kv.2 with
          | some uid =>
            if uid ≠ "" ∧ uid ∉ P then (kv.1, (none : Option String)) else kv
          | none => (kv.1, none)) := by
  intro A
  induction A with
  | nil => intro pods t; rfl
  | cons kv rest ih =>
    intro pods t
    obtain ⟨n, v⟩ := kv
    cases v with
    | none =>
      simp only [doPreempts, List.map_cons]
      rw [ih]
    | some uid =>
      simp only [doPreempts, List.map_cons]
      by_cases h : uid ≠ "" ∧ uid ∉ P
      · rw [if_pos h]
        cases hg : dictGet? pods uid with
        | some pinfo =>
          simp only [hg]
          rw [if_pos h, ih]
        | none =>
          simp only [hg]
          rw [if_pos h, ih]
      · rw [if_neg h]
        rw [if_neg h, ih]

theorem mem_preemptedUids {P : List String} {pods : List (String × PodInfo)}
    {uid : String} :
    ∀ {A : List (String × Option String)},
      uid ∈ preemptedUids P pods A ↔
        (∃ n, (n, some uid) ∈ A) ∧ uid ≠ "" ∧ uid ∉ P ∧ dictHas pods uid = true := by
  intro A
  induction A with
  | nil => simp [preemptedUids]
  | cons kv rest ih =>
    obtain ⟨n, v⟩ := kv
    cases v with
    | none =>
      simp only [preemptedUids]
      rw [ih]
      constructor
      · rintro ⟨⟨m, hm⟩, h2, h3, h4⟩
        exact ⟨⟨m, List.mem_cons_of_mem _ hm⟩, h2, h3, h4⟩
      · rintro ⟨⟨m, hm⟩, h2, h3, h4⟩
        rcases List.mem_cons.mp hm with heq | hm
        · cases heq
        · exact ⟨⟨m, hm⟩, h2, h3, h4⟩
    | some u0 =>
      simp only [preemptedUids]
      split_ifs with h
      · rw [List.mem_cons, ih]
        constructor
        · rintro (rfl | ⟨⟨m, hm⟩, h2, h3, h4⟩)
          · exact ⟨⟨n, List.mem_cons_self _ _⟩, h.1, h.2.1, h.2.2⟩
          · exact ⟨⟨m, List.mem_cons_of_mem _ hm⟩, h2, h3, h4⟩
        · rintro ⟨⟨m, hm⟩, h2, h3, h4⟩
          rcases List.mem_cons.mp hm with heq | hm
          · rw [Prod.mk.injEq, Option.some.injEq] at heq
            exact Or.inl heq.2
          · exact Or.inr ⟨⟨m, hm⟩, h2, h3, h4⟩
      · rw [ih]
        constructor
        · rintro ⟨⟨m, hm⟩, h2, h3, h4⟩
          exact ⟨⟨m, List.mem_cons_of_mem _ hm⟩, h2, h3, h4⟩
        · rintro ⟨⟨m, hm⟩, h2, h3, h4⟩
          rcases List.mem_cons.mp hm with heq | hm
          · rw [Prod.mk.injEq, Option.some.injEq] at heq
            obtain ⟨-, rfl⟩ := heq
            exact absurd ⟨h2, h3, h4⟩ h
          · exact ⟨⟨m, hm⟩, h2, h3, h4⟩

theorem markWaiting_cons_notkey {u : String} {B : List String} :
    ∀ {pods : List (String × PodInfo)}, (∀ kv ∈ pods, kv.1 ≠ u) →
      markWaiting (u :: B) pods = markWaiting B pods := by
  intro pods
  induction pods with
  | nil => intro _; rfl
  | cons kv rest ih =>
    intro h
    obtain ⟨k, r⟩ := kv
    have hk : k ≠ u := h (k, r) (List.mem_cons_self _ _)
    rw [markWaiting, markWaiting, List.map_cons, List.map_cons]
    have htail := ih (fun x hx => h x (List.mem_cons_of_mem _ hx))
    rw [markWaiting, markWaiting] at htail
    rw [htail]
    congr 1
    dsimp only
    by_cases hkB : k ∈ B
    · rw [if_pos hkB, if_pos (List.mem_cons_of_mem _ hkB)]
    · rw [if_neg hkB,
        if_neg (fun hc => (List.mem_cons.mp hc).elim (fun h1 => hk h1) hkB)]

theorem markWaiting_dictSet_mark {u : String} {r : PodInfo} {B : List String} :
    ∀ {pods : List (String × PodInfo)}, (pods.map Prod.fst).Nodup →
      dictGet? pods u = some r →
      markWaiting B (dictSet pods u { r with waiting_on_deletion := true }) =
        markWaiting (u :: B) pods := by
  intro pods
  induction pods with
  | nil => intro _ h; cases h
  | cons kv rest ih =>
    intro hnd hget
    obtain ⟨k, v⟩ := kv
    rw [List.map_cons, List.nodup_cons] at hnd
    rw [dictGet?] at hget
    rw [dictSet]
    split_ifs at hget ⊢ with hk
    · rw [Option.some.injEq] at hget
      subst hget
      subst hk
      rw [markWaiting, markWaiting, List.map_cons, List.map_cons]
      have hknotin : ∀ kv ∈ rest, kv.1 ≠ k := by
        intro kv hkv heq
        exact hnd.1 (heq ▸ List.mem_map.mpr ⟨kv, hkv, rfl⟩)
      congr 1
      · dsimp only
        rw [if_pos (List.mem_cons_self _ _)]
        split_ifs with hkB
        · simp
        · rfl
      · have htail := markWaiting_cons_notkey (u := k) (B := B) hknotin
        rw [markWaiting, markWaiting] at htail
        exact htail.symm
    · rw [markWaiting, markWaiting, List.map_cons, List.map_cons]
      have htail := ih hnd.2 hget
      rw [markWaiting, markWaiting] at htail
      rw [htail]
      congr 1
      dsimp only
      by_cases hkB : k ∈ B
      · rw [if_pos hkB, if_pos (List.mem_cons_of_mem _ hkB)]
      · rw [if_neg hkB,
          if_neg (fun hc => (List.mem_cons.mp hc).elim (fun h1 => hk h1) hkB)]

theorem doPreempts_pods (P : List String) :
    ∀ (A : List (String × Option String)) (pods : List (String × PodInfo))
      (t : List String), (pods.map Prod.fst).Nodup →
      (doPreempts P A pods t).2.1 = markWaiting (preemptedUids P pods A) pods := by
  intro A
  induction A with
  | nil =>
    intro pods t _
    rw [preemptedUids, markWaiting_nil_uids]
    rfl
  | cons kv rest ih =>
    intro pods t hnd
    obtain ⟨n, v⟩ := kv
    cases v with
    | none =>
      simp only [doPreempts, preemptedUids]
      exact ih pods t hnd
    | some uid =>
      simp only [doPreempts, preemptedUids]
      by_cases h : uid ≠ "" ∧ uid ∉ P
      · rw [if_pos h]
        cases hg : dictGet? pods uid with
        | some pinfo =>
          simp only [hg]
          have hhas : dictHas pods uid = true := by rw [dictHas, hg]; rfl
          rw [if_pos ⟨h.1, h.2, hhas⟩]
          have hnd1 : ((dictSet pods uid
              { pinfo with waiting_on_deletion := true }).map Prod.fst).Nodup := by
            rw [dictSet_keys_of_has _ hhas]
            exact hnd
          rw [ih _ _ hnd1]
          have hcongr : preemptedUids P (dictSet pods uid
              { pinfo with waiting_on_deletion := true }) rest =
              preemptedUids P pods rest := by
            clear ih
            induction rest with
            | nil => rfl
            | cons kv2 rest2 ih2 =>
              obtain ⟨n2, v2⟩ := kv2
              cases v2 with
              | none =>
                rw [preemptedUids, preemptedUids]
                exact ih2
              | some u2 =>
                rw [preemptedUids, preemptedUids]
                rw [dictHas_eq_of_keys (dictSet_keys_of_has _ hhas) u2]
                split_ifs with h2
                · rw [ih2]
                · exact ih2
          rw [hcongr]
          exact markWaiting_dictSet_mark hnd hg
        | none =>
          simp only [hg]
          have hhas : dictHas pods uid = false := by rw [dictHas, hg]; rfl
          rw [if_neg (by rw [hhas]; rintro ⟨-, -, hcon⟩; exact Bool.noConfusion hcon)]
          exact ih pods t hnd
      · rw [if_neg h, if_neg (by rintro ⟨h1, h2, -⟩; exact h ⟨h1, h2⟩)]
        exact ih pods t hnd

theorem doPreempts_trans_lower (P : List String) {x : String} :
    ∀ (A : List (String × Option String)) (pods : List (String × PodInfo))
      (t : List String) (uid : String) (r : PodInfo),
      (∃ n, (n, some uid) ∈ A) → uid ≠ "" → uid ∉ P →
      dictGet? pods uid = some r → gangOf r = some x →
      x ∈ (doPreempts P A pods t).2.2.1 := by
  intro A
  induction A with
  | nil =>
    rintro pods t uid r ⟨n, hn⟩ _ _ _ _
    cases hn
  | cons kv rest ih =>
    rintro pods t uid r ⟨n0, hn0⟩ hne hnp hget hgang
    obtain ⟨n, v⟩ := kv
    rcases List.mem_cons.mp hn0 with heq | hmem
    · rw [Prod.mk.injEq] at heq
      obtain ⟨-, hv⟩ := heq
      subst hv
      simp only [doPreempts]
      rw [if_pos ⟨hne, hnp⟩, hget]
      dsimp only
      rw [hgang]
      exact doPreempts_trans_mono _ _ _ _ (mem_setAdd_iff.mpr (Or.inr rfl))
    · cases v with
      | none =>
        simp only [doPreempts]
        exact ih _ _ _ _ ⟨n0, hmem⟩ hne hnp hget hgang
      | some u0 =>
        simp only [doPreempts]
        split_ifs with h
        · cases hg0 : dictGet? pods u0 with
          | some p0 =>
            simp only [hg0]
            by_cases heq0 : uid = u0
            · subst heq0
              rw [hget] at hg0
              rw [Option.some.injEq] at hg0
              subst hg0
              refine ih _ _ _ { r with waiting_on_deletion := true }
                ⟨n0, hmem⟩ hne hnp ?_ hgang
              exact dictGet?_dictSet_self _ _ _
            · refine ih _ _ _ r ⟨n0, hmem⟩ hne hnp ?_ hgang
              rw [dictGet?_dictSet_ne (fun hc => heq0 hc.symm) _ pods]
              exact hget
          | none =>
            simp only [hg0]
            exact ih _ _ _ _ ⟨n0, hmem⟩ hne hnp hget hgang
        · exact ih _ _ _ _ ⟨n0, hmem⟩ hne hnp hget hgang

theorem doPreempts_trans_upper (P : List String) {x : String} :
    ∀ (A : List (String × Option String)) (pods : List (String × PodInfo))
      (t : List String),
      x ∈ (doPreempts P A pods t).2.2.1 →
      x ∈ t ∨ ∃ uid r, (∃ n, (n, some uid) ∈ A) ∧ uid ≠ "" ∧ uid ∉ P ∧
        dictGet? pods uid = some r ∧ gangOf r = some x := by
  intro A
  induction A with
  | nil =>
    intro pods t h
    exact Or.inl h
  | cons kv rest ih =>
    intro pods t h
    obtain ⟨n, v⟩ := kv
    cases v with
    | none =>
      simp only [doPreempts] at h
      rcases ih _ _ h with h1 | ⟨uid, r, ⟨m, hm⟩, h2, h3, h4, h5⟩
      · exact Or.inl h1
      · exact Or.inr ⟨uid, r, ⟨m, List.mem_cons_of_mem _ hm⟩, h2, h3, h4, h5⟩
    | some u0 =>
      simp only [doPreempts] at h
      split_ifs at h with hc
      · cases hg0 : dictGet? pods u0 with
        | some p0 =>
          rw [hg0] at h
          dsimp only at h
          rcases ih _ _ h with h1 | ⟨uid, r, ⟨m, hm⟩, h2, h3, h4, h5⟩
          · cases hgo : gangOf p0 with
            | none =>
              rw [hgo] at h1
              exact Or.inl h1
            | some g =>
              rw [hgo] at h1
              rcases mem_setAdd_iff.mp h1 with h1 | rfl
              · exact Or.inl h1
              · exact Or.inr ⟨u0, p0, ⟨n, List.mem_cons_self _ _⟩, hc.1, hc.2,
                  hg0, hgo⟩
          · by_cases heq0 : uid = u0
            · subst heq0
              rw [dictGet?_dictSet_self] at h4
              rw [Option.some.injEq] at h4
              subst h4
              rw [gangOf_mark] at h5
              exact Or.inr ⟨uid, p0, ⟨n, List.mem_cons_self _ _⟩, h2, h3, hg0, h5⟩
            · rw [dictGet?_dictSet_ne (fun hh => heq0 hh.symm)] at h4
              exact Or.inr ⟨uid, r, ⟨m, List.mem_cons_of_mem _ hm⟩, h2, h3, h4, h5⟩
        | none =>
          rw [hg0] at h
          dsimp only at h
          rcases ih _ _ h with h1 | ⟨uid, r, ⟨m, hm⟩, h2, h3, h4, h5⟩
          · exact Or.inl h1
          · exact Or.inr ⟨uid, r, ⟨m, List.mem_cons_of_mem _ hm⟩, h2, h3, h4, h5⟩
      · rcases ih _ _ h with h1 | ⟨uid, r, ⟨m, hm⟩, h2, h3, h4, h5⟩
        · exact Or.inl h1
        · exact Or.inr ⟨uid, r, ⟨m, List.mem_cons_of_mem _ hm⟩, h2, h3, h4, h5⟩

theorem doPreempts_noop (P : List String) :
    ∀ (A : List (String × Option String)) (pods : List (String × PodInfo))
      (t : List String),
      (∀ kv ∈ A, ∀ uid, kv.2 = some uid → uid ≠ "" → uid ∈ P) →
      doPreempts P A pods t = (A, pods, t, []) := by
  intro A
  induction A with
  | nil => intro pods t _; rfl
  | cons kv rest ih =>
    intro pods t h
    obtain ⟨n, v⟩ := kv
    cases v with
    | none =>
      simp only [doPreempts]
      rw [ih pods t (fun x hx => h x (List.mem_cons_of_mem _ hx))]
    | some uid =>
      simp only [doPreempts]
      have hcond : ¬(uid ≠ "" ∧ uid ∉ P) := by
        rintro ⟨h1, h2⟩
        exact h2 (h (n, some uid) (List.mem_cons_self _ _) uid rfl h1)
      rw [if_neg hcond]
      rw [ih pods t (fun x hx => h x (List.mem_cons_of_mem _ hx))]

theorem mem_freeNodes_iff {x : String} {A : List (String × Option String)} :
    x ∈ freeNodes A ↔ (x, (none : Option String)) ∈ A := by
  unfold freeNodes
  rw [List.mem_map]
  constructor
  · rintro ⟨⟨n, v⟩, hmem, rfl⟩
    rw [List.mem_filter] at hmem
    have : v = none := by
      cases v
      · rfl
      · simp at hmem
    subst this
    exact hmem.1
  · intro h
    exact ⟨(x, none), List.mem_filter.mpr ⟨h, rfl⟩, rfl⟩

theorem freeNodes_get {x : String} {A : List (String × Option String)}
    (hnd : (A.map Prod.fst).Nodup) (h : x ∈ freeNodes A) :
    dictGet? A x = some none :=
  dictGet?_of_mem_nodup hnd (mem_freeNodes_iff.mp h)

theorem getPodNode_isSome_of_entry {u n : String} :
    ∀ {A : List (String × Option String)}, (n, some u) ∈ A →
      (getPodNode A u).isSome = true := by
  intro A
  induction A with
  | nil => intro h; cases h
  | cons kv rest ih =>
    intro h
    obtain ⟨m, v⟩ := kv
    rw [getPodNode]
    split_ifs with hv
    · rfl
    · rcases List.mem_cons.mp h with heq | hmem
      · rw [Prod.mk.injEq] at heq
        exact absurd heq.2.symm hv
      · exact ih hmem

theorem getPodNode_isSome_dictSet {u n w : String} :
    ∀ {A : List (String × Option String)}, dictGet? A n = some none →
      (getPodNode A u).isSome = true →
      (getPodNode (dictSet A n (some w)) u).isSome = true := by
  intro A
  induction A with
  | nil => intro h; cases h
  | cons kv rest ih =>
    intro hget hsome
    obtain ⟨k, v⟩ := kv
    rw [dictGet?] at hget
    by_cases hk : k = n
    · rw [if_pos hk] at hget
      rw [Option.some.injEq] at hget
      subst hget
      rw [getPodNode, if_neg (fun hc => Option.noConfusion hc)] at hsome
      rw [dictSet, if_pos hk, getPodNode]
      split_ifs with hw
      · rfl
      · exact hsome
    · rw [if_neg hk] at hget
      rw [dictSet, if_neg hk, getPodNode]
      rw [getPodNode] at hsome
      split_ifs at hsome ⊢ with hv
      · rfl
      · exact ih hget hsome

theorem freeNodes_dictSet_some {n w : String} :
    ∀ {A : List (String × Option String)}, (A.map Prod.fst).Nodup →
      dictGet? A n = some none →
      ∀ x, x ∈ freeNodes (dictSet A n (some w)) ↔ x ∈ freeNodes A ∧ x ≠ n := by
  intro A
  induction A with
  | nil => intro _ h; cases h
  | cons kv rest ih =>
    intro hnd hget x
    obtain ⟨k, v⟩ := kv
    rw [List.map_cons, List.nodup_cons] at hnd
    rw [dictGet?] at hget
    by_cases hk : k = n
    · rw [if_pos hk] at hget
      rw [Option.some.injEq] at hget
      subst hget
      subst hk
      rw [dictSet, if_pos rfl]
      have e1 : freeNodes ((k, some w) :: rest) = freeNodes rest := rfl
      have e2 : freeNodes ((k, (none : Option String)) :: rest) =
          k :: freeNodes rest := rfl
      rw [e1, e2]
      constructor
      · intro h
        refine ⟨List.mem_cons_of_mem _ h, ?_⟩
        intro hxk
        subst hxk
        exact hnd.1 (List.mem_map.mpr ⟨(x, none), mem_freeNodes_iff.mp h, rfl⟩)
      · rintro ⟨h1, h2⟩
        rcases List.mem_cons.mp h1 with rfl | h1
        · exact absurd rfl h2
        · exact h1
    · rw [if_neg hk] at hget
      rw [dictSet, if_neg hk]
      have hfr : freeNodes ((k, v) :: dictSet rest n (some w)) =
          (if v.isNone then [k] else []) ++ freeNodes (dictSet rest n (some w)) := by
        unfold freeNodes
        rw [List.filter_cons]
        cases v <;> simp
      have hfr0 : freeNodes ((k, v) :: rest) =
          (if v.isNone then [k] else []) ++ freeNodes rest := by
        unfold freeNodes
        rw [List.filter_cons]
        cases v <;> simp
      rw [hfr, hfr0, List.mem_append, List.mem_append, ih hnd.2 hget x]
      constructor
      · rintro (h1 | ⟨h1, h2⟩)
        · refine ⟨Or.inl h1, ?_⟩
          intro hxn
          subst hxn
          split_ifs at h1 with hv
          · rw [List.mem_singleton] at h1
            exact hk h1.symm
          · cases h1
        · exact ⟨Or.inr h1, h2⟩
      · rintro ⟨h1 | h1, h2⟩
        · exact Or.inl h1
        · exact Or.inr ⟨h1, h2⟩

theorem mem_planPodList {p : PodInfo} {units : List SchedulingUnit} :
    p ∈ planPodList units ↔ ∃ u ∈ units, p ∈ u.pods := by
  unfold planPodList
  rw [List.mem_flatten]
  constructor
  · rintro ⟨l, hl, hp⟩
    obtain ⟨u, hu, rfl⟩ := List.mem_map.mp hl
    exact ⟨u, hu, hp⟩
  · rintro ⟨u, hu, hp⟩
    exact ⟨u.pods, List.mem_map.mpr ⟨u, hu, rfl⟩, hp⟩

theorem truthy_isSome {x : Option String} (h : truthy x = true) :
    x.isSome = true := by
  cases x with
  | none => exact Bool.noConfusion h
  | some v => rfl

theorem getPodNode_mem_keys {uid n : String} :
    ∀ {A : List (String × Option String)},
      getPodNode A uid = some n → n ∈ A.map Prod.fst := by
  intro A
  induction A with
  | nil => intro h; cases h
  | cons kv rest ih =>
    obtain ⟨m, v⟩ := kv
    rw [getPodNode]
    intro h
    by_cases hv : v = some uid
    · rw [if_pos hv, Option.some.injEq] at h
      rw [List.map_cons, h]
      exact List.mem_cons_self _ _
    · rw [if_neg hv] at h
      exact List.mem_cons_of_mem _ (ih h)

theorem truthy_getPodNode_eq {uid : String} {A : List (String × Option String)}
    (hne : "" ∉ A.map Prod.fst) :
    truthy (getPodNode A uid) = (getPodNode A uid).isSome := by
  cases hg : getPodNode A uid with
  | none => rfl
  | some n =>
    have hn : n ≠ "" := by
      intro hc
      exact hne (hc ▸ getPodNode_mem_keys hg)
    simp [truthy, hn]

theorem dictSet_keys_subset {α : Type} {x k : String} {v : α} :
    ∀ {L : List (String × α)},
      x ∈ (dictSet L k v).map Prod.fst → x ∈ L.map Prod.fst ∨ x = k := by
  intro L
  induction L with
  | nil =>
    intro h
    rcases List.mem_singleton.mp h with rfl
    exact Or.inr rfl
  | cons kv rest ih =>
    obtain ⟨k0, v0⟩ := kv
    rw [dictSet]
    intro h
    by_cases hk : k0 = k
    · rw [if_pos hk, List.map_cons] at h
      rcases List.mem_cons.mp h with rfl | h1
      · exact Or.inr hk
      · exact Or.inl (List.mem_cons_of_mem _ h1)
    · rw [if_neg hk, List.map_cons] at h
      rcases List.mem_cons.mp h with rfl | h1
      · exact Or.inl (List.mem_cons_self _ _)
      · rcases ih h1 with h2 | h2
        · exact Or.inl (List.mem_cons_of_mem _ h2)
        · exact Or.inr h2

theorem bindUnit_avail_subset :
    ∀ (ps : List PodInfo) (A : List (String × Option String)) (avail : List String),
      ∀ x ∈ (bindUnit A avail ps).2.1, x ∈ avail := by
  intro ps
  induction ps with
  | nil => intro A avail x hx; exact hx
  | cons p rest ih =>
    intro A avail x hx
    by_cases hassigned : truthy (getPodNode A p.uid) = true
    · have hred : bindUnit A avail (p :: rest) = bindUnit A avail rest := by
        cases avail with
        | nil => rw [bindUnit, if_pos hassigned]
        | cons n t => rw [bindUnit, if_pos hassigned]
      rw [hred] at hx
      exact ih A avail x hx
    · cases avail with
      | nil =>
        rw [bindUnit, if_neg hassigned] at hx
        exact hx
      | cons n avail1 =>
        rw [bindUnit, if_neg hassigned] at hx
        dsimp only at hx
        by_cases hocc : truthy (dictGet? A n).join = true
        · rw [if_pos hocc] at hx
          exact List.mem_cons_of_mem _ hx
        · rw [if_neg hocc] at hx
          dsimp only at hx
          exact List.mem_cons_of_mem _
            (ih (dictSet A n (some p.uid)) avail1 x hx)

theorem bindUnit_keys_subset :
    ∀ (ps : List PodInfo) (A : List (String × Option String)) (avail : List String),
      ∀ x ∈ (bindUnit A avail ps).1.map Prod.fst,
        x ∈ A.map Prod.fst ∨ x ∈ avail := by
  intro ps
  induction ps with
  | nil => intro A avail x hx; exact Or.inl hx
  | cons p rest ih =>
    intro A avail x hx
    by_cases hassigned : truthy (getPodNode A p.uid) = true
    · have hred : bindUnit A avail (p :: rest) = bindUnit A avail rest := by
        cases avail with
        | nil => rw [bindUnit, if_pos hassigned]
        | cons n t => rw [bindUnit, if_pos hassigned]
      rw [hred] at hx
      exact ih A avail x hx
    · cases avail with
      | nil =>
        rw [bindUnit, if_neg hassigned] at hx
        exact Or.inl hx
      | cons n avail1 =>
        rw [bindUnit, if_neg hassigned] at hx
        dsimp only at hx
        by_cases hocc : truthy (dictGet? A n).join = true
        · rw [if_pos hocc] at hx
          exact Or.inl hx
        · rw [if_neg hocc] at hx
          dsimp only at hx
          rcases ih (dictSet A n (some p.uid)) avail1 x hx with h1 | h1
          · rcases dictSet_keys_subset h1 with h2 | h2
            · exact Or.inl h2
            · exact Or.inr (h2 ▸ List.mem_cons_self _ _)
          · exact Or.inr (List.mem_cons_of_mem _ h1)

theorem bindUnit_master :
    ∀ (ps : List PodInfo) (A : List (String × Option String)) (avail : List String),
      (A.map Prod.fst).Nodup → avail.Nodup →
      (∀ x, x ∈ avail ↔ x ∈ freeNodes A) →
      "" ∉ A.map Prod.fst →
      ((bindUnit A avail ps).1.map Prod.fst = A.map Prod.fst) ∧
      (bindUnit A avail ps).2.1.Nodup ∧
      (∀ x, x ∈ (bindUnit A avail ps).2.1 ↔ x ∈ freeNodes (bindUnit A avail ps).1) ∧
      (∀ kv ∈ (bindUnit A avail ps).1, kv ∈ A ∨ ∃ p ∈ ps, kv.2 = some p.uid) ∧
      (∀ u', (getPodNode A u').isSome = true →
        (getPodNode (bindUnit A avail ps).1 u').isSome = true) ∧
      (∀ p ∈ ps, (getPodNode (bindUnit A avail ps).1 p.uid).isSome = true ∨
        (bindUnit A avail ps).2.1 = []) ∧
      (∀ x ∈ (bindUnit A avail ps).2.1, x ∈ avail) := by
  intro ps
  induction ps with
  | nil =>
    intro A avail hA hav hinv _
    refine ⟨rfl, hav, hinv, fun kv hkv => Or.inl hkv, fun u' h => h,
      fun p hp => absurd hp (List.not_mem_nil p), fun x hx => hx⟩
  | cons p rest ih =>
    intro A avail hA hav hinv hne
    by_cases hassigned : truthy (getPodNode A p.uid) = true
    · have hred : bindUnit A avail (p :: rest) = bindUnit A avail rest := by
        cases avail with
        | nil => rw [bindUnit, if_pos hassigned]
        | cons n t => rw [bindUnit, if_pos hassigned]
      rw [hred]
      obtain ⟨c1, c2, c3, c4, c5, c6, c7⟩ := ih A avail hA hav hinv hne
      refine ⟨c1, c2, c3, ?_, c5, ?_, c7⟩
      · intro kv hkv
        rcases c4 kv hkv with h | ⟨q, hq, hv⟩
        · exact Or.inl h
        · exact Or.inr ⟨q, List.mem_cons_of_mem _ hq, hv⟩
      · intro q hq
        rcases List.mem_cons.mp hq with rfl | hq
        · exact Or.inl (c5 q.uid (truthy_isSome hassigned))
        · exact c6 q hq
    · cases avail with
      | nil =>
        have hred : bindUnit A [] (p :: rest) = (A, [], []) := by
          rw [bindUnit, if_neg hassigned]
        rw [hred]
        refine ⟨rfl, List.nodup_nil, ?_, fun kv hkv => Or.inl hkv,
          fun u' h => h, fun q hq => Or.inr rfl, fun x hx => hx⟩
        intro x
        exact ⟨fun h => absurd h (List.not_mem_nil x), fun h => absurd h
          (by rw [← (hinv x)] at h; exact (List.not_mem_nil x h).elim)⟩
      | cons n avail1 =>
        have hnfree : n ∈ freeNodes A := (hinv n).mp (List.mem_cons_self _ _)
        have hgetn : dictGet? A n = some none := freeNodes_get hA hnfree
        have hjoin : ¬(truthy (dictGet? A n).join = true) := by
          rw [hgetn]
          exact fun hc => Bool.noConfusion hc
        have hred : bindUnit A (n :: avail1) (p :: rest) =
            ((bindUnit (dictSet A n (some p.uid)) avail1 rest).1,
             (bindUnit (dictSet A n (some p.uid)) avail1 rest).2.1,
             Action.bind p.uid p.name p.namespace_ n ::
               (bindUnit (dictSet A n (some p.uid)) avail1 rest).2.2) := by
          rw [bindUnit, if_neg hassigned]
          dsimp only
          rw [if_neg hjoin]
        rw [List.nodup_cons] at hav
        have hA1keys : (dictSet A n (some p.uid)).map Prod.fst = A.map Prod.fst :=
          dictSet_keys_of_has _ (by rw [dictHas, hgetn]; rfl)
        have hA1 : ((dictSet A n (some p.uid)).map Prod.fst).Nodup := by
          rw [hA1keys]
          exact hA
        have hinv1 : ∀ x, x ∈ avail1 ↔ x ∈ freeNodes (dictSet A n (some p.uid)) := by
          intro x
          rw [freeNodes_dictSet_some hA hgetn x]
          constructor
          · intro hx
            refine ⟨(hinv x).mp (List.mem_cons_of_mem _ hx), ?_⟩
            intro hxn
            subst hxn
            exact hav.1 hx
          · rintro ⟨h1, h2⟩
            rcases List.mem_cons.mp ((hinv x).mpr h1) with rfl | hx
            · exact absurd rfl h2
            · exact hx
        have hne1 : "" ∉ (dictSet A n (some p.uid)).map Prod.fst := by
          rw [hA1keys]
          exact hne
        obtain ⟨c1, c2, c3, c4, c5, c6, c7⟩ :=
          ih (dictSet A n (some p.uid)) avail1 hA1 hav.2 hinv1 hne1
        rw [hred]
        dsimp only
        refine ⟨by rw [c1, hA1keys], c2, c3, ?_, ?_, ?_,
          fun x hx => List.mem_cons_of_mem _ (c7 x hx)⟩
        · intro kv hkv
          rcases c4 kv hkv with h | ⟨q, hq, hv⟩
          · rcases mem_dictSet h with h1 | h1
            · exact Or.inl h1
            · exact Or.inr ⟨p, List.mem_cons_self _ _, h1⟩
          · exact Or.inr ⟨q, List.mem_cons_of_mem _ hq, hv⟩
        · intro u' h
          exact c5 u' (getPodNode_isSome_dictSet hgetn h)
        · intro q hq
          rcases List.mem_cons.mp hq with rfl | hq
          · refine Or.inl (c5 q.uid ?_)
            exact getPodNode_isSome_of_entry
              (mem_of_dictGet? (dictGet?_dictSet_self n (some q.uid) A))
          · exact c6 q hq

theorem bindAll_master :
    ∀ (units : List SchedulingUnit) (A : List (String × Option String))
      (avail : List String),
      (A.map Prod.fst).Nodup → avail.Nodup →
      (∀ x, x ∈ avail ↔ x ∈ freeNodes A) →
      "" ∉ A.map Prod.fst →
      ((bindAll A avail units).1.map Prod.fst = A.map Prod.fst) ∧
      (bindAll A avail units).2.1.Nodup ∧
      (∀ x, x ∈ (bindAll A avail units).2.1 ↔
        x ∈ freeNodes (bindAll A avail units).1) ∧
      (∀ kv ∈ (bindAll A avail units).1, kv ∈ A ∨
        ∃ p ∈ planPodList units, kv.2 = some p.uid) ∧
      (∀ u', (getPodNode A u').isSome = true →
        (getPodNode (bindAll A avail units).1 u').isSome = true) ∧
      (∀ p ∈ planPodList units,
        (getPodNode (bindAll A avail units).1 p.uid).isSome = true ∨
        (bindAll A avail units).2.1 = []) ∧
      (∀ x ∈ (bindAll A avail units).2.1, x ∈ avail) := by
  intro units
  induction units with
  | nil =>
    intro A avail hA hav hinv _
    refine ⟨rfl, hav, hinv, fun kv hkv => Or.inl hkv, fun u' h => h, ?_, fun x hx => hx⟩
    intro p hp
    rw [mem_planPodList] at hp
    obtain ⟨u, hu, -⟩ := hp
    exact absurd hu (List.not_mem_nil u)
  | cons u rest ih =>
    intro A avail hA hav hinv hne
    obtain ⟨c1, c2, c3, c4, c5, c6, c7⟩ :=
      bindUnit_master u.pods A avail hA hav hinv hne
    have hured : bindAll A avail (u :: rest) =
        ((bindAll (bindUnit A avail u.pods).1 (bindUnit A avail u.pods).2.1 rest).1,
         (bindAll (bindUnit A avail u.pods).1 (bindUnit A avail u.pods).2.1 rest).2.1,
         (bindUnit A avail u.pods).2.2 ++
           (bindAll (bindUnit A avail u.pods).1
             (bindUnit A avail u.pods).2.1 rest).2.2) := by
      rw [bindAll]
    rw [hured]
    dsimp only
    have hA' : ((bindUnit A avail u.pods).1.map Prod.fst).Nodup := by
      rw [c1]
      exact hA
    have hne' : "" ∉ (bindUnit A avail u.pods).1.map Prod.fst := by
      rw [c1]
      exact hne
    obtain ⟨d1, d2, d3, d4, d5, d6, d7⟩ :=
      ih (bindUnit A avail u.pods).1 (bindUnit A avail u.pods).2.1 hA' c2 c3 hne'
    refine ⟨by rw [d1, c1], d2, d3, ?_, ?_, ?_, fun x hx => c7 x (d7 x hx)⟩
    · intro kv hkv
      rcases d4 kv hkv with h | ⟨q, hq, hv⟩
      · rcases c4 kv h with h1 | ⟨q, hq, hv⟩
        · exact Or.inl h1
        · exact Or.inr ⟨q, mem_planPodList.mpr ⟨u, List.mem_cons_self _ _, hq⟩, hv⟩
      · rw [mem_planPodList] at hq
        obtain ⟨u', hu', hq'⟩ := hq
        exact Or.inr ⟨q, mem_planPodList.mpr ⟨u', List.mem_cons_of_mem _ hu', hq'⟩, hv⟩
    · intro u' h
      exact d5 u' (c5 u' h)
    · intro p hp
      rw [mem_planPodList] at hp
      obtain ⟨u', hu', hp'⟩ := hp
      rcases List.mem_cons.mp hu' with rfl | hu'
      · rcases c6 p hp' with h | h
        · exact Or.inl (d5 p.uid h)
        · -- the unit's binding ran out of nodes: avail is empty from here on
          refine Or.inr (List.eq_nil_iff_forall_not_mem.mpr ?_)
          intro x hx
          have hx' := d7 x hx
          rw [h] at hx'
          exact List.not_mem_nil x hx'
      · rcases d6 p (mem_planPodList.mpr ⟨u', hu', hp'⟩) with h1 | h1
        · exact Or.inl h1
        · exact Or.inr h1

theorem bindUnit_all_assigned :
    ∀ (ps : List PodInfo) (A : List (String × Option String)) (avail : List String),
      (∀ p ∈ ps, truthy (getPodNode A p.uid) = true) →
      bindUnit A avail ps = (A, avail, []) := by
  intro ps
  induction ps with
  | nil => intro A avail _; rfl
  | cons p rest ih =>
    intro A avail h
    have hassigned := h p (List.mem_cons_self _ _)
    have hred : bindUnit A avail (p :: rest) = bindUnit A avail rest := by
      cases avail with
      | nil => rw [bindUnit, if_pos hassigned]
      | cons n t => rw [bindUnit, if_pos hassigned]
    rw [hred]
    exact ih A avail (fun q hq => h q (List.mem_cons_of_mem _ hq))

theorem bindAll_all_assigned :
    ∀ (units : List SchedulingUnit) (A : List (String × Option String))
      (avail : List String),
      (∀ p ∈ planPodList units, truthy (getPodNode A p.uid) = true) →
      bindAll A avail units = (A, avail, []) := by
  intro units
  induction units with
  | nil => intro A avail _; rfl
  | cons u rest ih =>
    intro A avail h
    have h1 : bindUnit A avail u.pods = (A, avail, []) :=
      bindUnit_all_assigned u.pods A avail
        (fun p hp => h p (mem_planPodList.mpr ⟨u, List.mem_cons_self _ _, hp⟩))
    have h2 : ∀ p ∈ planPodList rest, truthy (getPodNode A p.uid) = true := by
      intro p hp
      obtain ⟨u', hu', hp'⟩ := mem_planPodList.mp hp
      exact h p (mem_planPodList.mpr ⟨u', List.mem_cons_of_mem _ hu', hp'⟩)
    rw [bindAll, h1]
    dsimp only
    rw [ih A avail h2]
    rfl

theorem bindUnit_noavail :
    ∀ (ps : List PodInfo) (A : List (String × Option String)),
      bindUnit A [] ps = (A, [], []) := by
  intro ps
  induction ps with
  | nil => intro A; rfl
  | cons p rest ih =>
    intro A
    by_cases hc : truthy (getPodNode A p.uid) = true
    · rw [bindUnit, if_pos hc]
      exact ih A
    · rw [bindUnit, if_neg hc]

theorem bindAll_noavail :
    ∀ (units : List SchedulingUnit) (A : List (String × Option String)),
      bindAll A [] units = (A, [], []) := by
  intro units
  induction units with
  | nil => intro A; rfl
  | cons u rest ih =>
    intro A
    rw [bindAll, bindUnit_noavail]
    dsimp only
    rw [ih A]
    rfl

theorem pipeline_noop (s : SchedState)
    (hA : ∀ kv ∈ s.node_assignments, ∀ uid, kv.2 = some uid → uid ≠ "" →
      uid ∈ planPodUids (createPlan s))
    (hbind : (∀ p ∈ planPodList (createPlan s),
        truthy (getPodNode s.node_assignments p.uid) = true) ∨
      freeNodes s.node_assignments = []) :
    pipelineRun s = (s, []) := by
  have hpre : doPreempts (planPodUids (createPlan s)) s.node_assignments
      s.all_pods s.gangs_in_transition =
      (s.node_assignments, s.all_pods, s.gangs_in_transition, []) :=
    doPreempts_noop _ _ _ _ hA
  rw [pipelineRun, planToActions]
  rw [hpre]
  dsimp only
  rcases hbind with h | h
  · rw [bindAll_all_assigned _ _ _ h]
    rfl
  · rw [h]
    have e : sortStrings ([] : List String) = [] := rfl
    rw [e, bindAll_noavail]
    rfl

theorem markOne_waiting_of {B : List String} {p : PodInfo}
    (h : p.waiting_on_deletion = true) :
    (markOne B p).waiting_on_deletion = true := by
  unfold markOne
  split_ifs <;> simp [h]

theorem markOne_of_not_mem {B : List String} {p : PodInfo} (h : p.uid ∉ B) :
    markOne B p = p := by
  unfold markOne
  rw [if_neg h]

theorem markOne_mem_waiting {B : List String} {p : PodInfo} (h : p.uid ∈ B) :
    (markOne B p).waiting_on_deletion = true := by
  unfold markOne
  rw [if_pos h]

theorem markWaiting_values {B : List String} :
    ∀ {pods : List (String × PodInfo)},
      (∀ kv ∈ pods, (kv.2).uid = kv.1) →
      (markWaiting B pods).map Prod.snd
        = (pods.map Prod.snd).map (markOne B) := by
  intro pods
  induction pods with
  | nil => intro _; rfl
  | cons kv rest ih =>
    intro hwf
    obtain ⟨k, p⟩ := kv
    have hk : p.uid = k := hwf (k, p) (List.mem_cons_self _ _)
    rw [markWaiting, List.map_cons, List.map_cons, List.map_cons, List.map_cons]
    have htail : (markWaiting B rest).map Prod.snd
        = (rest.map Prod.snd).map (markOne B) := by
      rw [markWaiting] at ih
      exact ih (fun kv h => hwf kv (List.mem_cons_of_mem _ h))
    rw [markWaiting] at htail
    by_cases hmem : k ∈ B
    · rw [if_pos hmem]
      have : markOne B p = { p with waiting_on_deletion := true } := by
        unfold markOne
        rw [if_pos (hk ▸ hmem)]
      rw [this]
      dsimp only
      rw [htail]
    · rw [if_neg hmem]
      have : markOne B p = p := markOne_of_not_mem (hk ▸ hmem)
      rw [this]
      dsimp only
      rw [htail]

theorem filter_gangAdd_in {tset : List String} {g : String} {p : PodInfo}
    (hg : g ∉ tset) :
    ∀ a : List (String × List PodInfo),
      (gangAdd a g p).filter (fun e => !(List.elem e.1 tset))
        = gangAdd (a.filter (fun e => !(List.elem e.1 tset))) g p := by
  intro a
  induction a with
  | nil => simp [gangAdd, hg]
  | cons e rest ih =>
    obtain ⟨g0, ps0⟩ := e
    by_cases heq : g0 = g
    · subst heq
      simp [gangAdd, hg]
    · by_cases hf : g0 ∈ tset
      · simpa [gangAdd, heq, hf] using ih
      · simpa [gangAdd, heq, hf] using ih

theorem filter_gangAdd_out {tset : List String} {g : String} {p : PodInfo}
    (hg : g ∈ tset) :
    ∀ a : List (String × List PodInfo),
      (gangAdd a g p).filter (fun e => !(List.elem e.1 tset))
        = a.filter (fun e => !(List.elem e.1 tset)) := by
  intro a
  induction a with
  | nil => simp [gangAdd, hg]
  | cons e rest ih =>
    obtain ⟨g0, ps0⟩ := e
    by_cases heq : g0 = g
    · subst heq
      simp [gangAdd, hg]
    · by_cases hf : g0 ∈ tset
      · simpa [gangAdd, heq, hf] using ih
      · simpa [gangAdd, heq, hf] using ih

theorem collectPods_eq_foldl (l : List PodInfo) :
    collectPods l = l.foldl collectStep ([], []) := rfl

theorem collectStep_waiting {p : PodInfo}
    (h : p.waiting_on_deletion = true)
    (acc : List PodInfo × List (String × List PodInfo)) :
    collectStep acc p = acc := by
  unfold collectStep
  rw [if_pos h]

theorem collectStep_single {p : PodInfo}
    (hw : p.waiting_on_deletion = false) (hgo : gangOf p = none)
    (acc : List PodInfo × List (String × List PodInfo)) :
    collectStep acc p = (acc.1 ++ [p], acc.2) := by
  unfold collectStep
  rw [hw, hgo]
  rfl

theorem collectStep_gang {p : PodInfo} {g : String}
    (hw : p.waiting_on_deletion = false) (hgo : gangOf p = some g)
    (acc : List PodInfo × List (String × List PodInfo)) :
    collectStep acc p = (acc.1, gangAdd acc.2 g p) := by
  unfold collectStep
  rw [hw, hgo]
  rfl

theorem collect_mark_aux (B t2 : List String) :
    ∀ (l : List PodInfo) (acc1 acc2 : List PodInfo × List (String × List PodInfo)),
      (∀ p ∈ l, ∀ g, gangOf p = some g → p.uid ∈ B → List.elem g t2 = true) →
      acc2.1 = acc1.1.filter (fun p => !(List.elem p.uid B)) →
      acc2.2.filter (fun e => !(List.elem e.1 t2))
        = acc1.2.filter (fun e => !(List.elem e.1 t2)) →
      ((l.map (markOne B)).foldl collectStep acc2).1
          = ((l.foldl collectStep acc1).1).filter (fun p => !(List.elem p.uid B)) ∧
        (((l.map (markOne B)).foldl collectStep acc2).2).filter
            (fun e => !(List.elem e.1 t2))
          = ((l.foldl collectStep acc1).2).filter (fun e => !(List.elem e.1 t2)) := by
  intro l
  induction l with
  | nil =>
    intro acc1 acc2 _ h1 h2
    exact ⟨h1, h2⟩
  | cons p rest ih =>
    intro acc1 acc2 hfree h1 h2
    rw [List.map_cons, List.foldl_cons, List.foldl_cons]
    have hfree' : ∀ p ∈ rest, ∀ g, gangOf p = some g → p.uid ∈ B →
        List.elem g t2 = true :=
      fun q hq => hfree q (List.mem_cons_of_mem _ hq)
    by_cases hw : p.waiting_on_deletion = true
    · rw [collectStep_waiting (markOne_waiting_of hw), collectStep_waiting hw]
      exact ih acc1 acc2 hfree' h1 h2
    · rw [Bool.not_eq_true] at hw
      by_cases hB : p.uid ∈ B
      · rw [collectStep_waiting (markOne_mem_waiting hB)]
        rcases hgo : gangOf p with _ | g
        · rw [collectStep_single hw hgo]
          refine ih _ _ hfree' ?_ h2
          rw [h1, List.filter_append]
          have hz : List.filter (fun q => !(List.elem q.uid B)) [p] = [] := by
            simp [hB]
          rw [hz, List.append_nil]
        · rw [collectStep_gang hw hgo]
          refine ih _ _ hfree' h1 ?_
          have hge : g ∈ t2 :=
            List.elem_iff.mp (hfree p (List.mem_cons_self _ _) g hgo hB)
          rw [h2]
          exact (filter_gangAdd_out hge acc1.2).symm
      · rw [markOne_of_not_mem hB]
        rcases hgo : gangOf p with _ | g
        · rw [collectStep_single hw hgo, collectStep_single hw hgo]
          refine ih _ _ hfree' ?_ h2
          dsimp only
          rw [h1, List.filter_append]
          have hz : List.filter (fun q => !(List.elem q.uid B)) [p] = [p] := by
            simp [hB]
          rw [hz]
        · rw [collectStep_gang hw hgo, collectStep_gang hw hgo]
          refine ih _ _ hfree' h1 ?_
          dsimp only
          by_cases hge : g ∈ t2
          · rw [filter_gangAdd_out hge, filter_gangAdd_out hge]
            exact h2
          · rw [filter_gangAdd_in hge, filter_gangAdd_in hge, h2]

theorem collect_mark (B t2 : List String) (l : List PodInfo)
    (hfree : ∀ p ∈ l, ∀ g, gangOf p = some g → p.uid ∈ B →
      List.elem g t2 = true) :
    (collectPods (l.map (markOne B))).1
        = ((collectPods l).1).filter (fun p => !(List.elem p.uid B)) ∧
      ((collectPods (l.map (markOne B))).2).filter (fun e => !(List.elem e.1 t2))
        = ((collectPods l).2).filter (fun e => !(List.elem e.1 t2)) := by
  rw [collectPods_eq_foldl, collectPods_eq_foldl]
  exact collect_mark_aux B t2 l ([], []) ([], []) hfree rfl rfl

theorem gangUnitsOf_filter_trans (tset : List String) :
    ∀ gl : List (String × List PodInfo),
      gangUnitsOf tset (gl.filter (fun e => !(List.elem e.1 tset)))
        = gangUnitsOf tset gl := by
  intro gl
  induction gl with
  | nil => rfl
  | cons e rest ih =>
    obtain ⟨g, ps⟩ := e
    by_cases hmem : g ∈ tset
    · have e1 : List.filter (fun e => !(List.elem e.1 tset)) ((g, ps) :: rest)
          = List.filter (fun e => !(List.elem e.1 tset)) rest := by
        simp [hmem]
      rw [e1, ih, gangUnitsOf]
      by_cases hany : ps.any (fun p => p.waiting_on_deletion) = true
      · rw [if_pos hany]
      · rw [if_neg hany, if_pos hmem]
    · have e1 : List.filter (fun e => !(List.elem e.1 tset)) ((g, ps) :: rest)
          = (g, ps) :: List.filter (fun e => !(List.elem e.1 tset)) rest := by
        simp [hmem]
      rw [e1, gangUnitsOf, gangUnitsOf]
      by_cases hany : ps.any (fun p => p.waiting_on_deletion) = true
      · rw [if_pos hany, if_pos hany, ih]
      · rw [if_neg hany, if_neg hany, if_neg hmem, if_neg hmem, ih]

theorem gangUnitsOf_sub (B t1 t2 : List String) (hsub : ∀ x ∈ t1, x ∈ t2) :
    ∀ gl : List (String × List PodInfo),
      gangUnitsOf t2 gl = (gangUnitsOf t1 gl).filter (keepUnit B t2) := by
  intro gl
  induction gl with
  | nil => rfl
  | cons e rest ih =>
    obtain ⟨g, ps⟩ := e
    rw [gangUnitsOf, gangUnitsOf]
    by_cases hany : ps.any (fun p => p.waiting_on_deletion) = true
    · rw [if_pos hany, if_pos hany, ih]
    · rw [if_neg hany, if_neg hany]
      by_cases h1 : g ∈ t1
      · rw [if_pos h1, if_pos (hsub g h1), ih]
      · rw [if_neg h1]
        by_cases h2 : g ∈ t2
        · have hk : keepUnit B t2
              (SchedulingUnit.mk ps true (minPriority ps) (some g)) = false := by
            simp [keepUnit, h2]
          have e2 : (SchedulingUnit.mk ps true (minPriority ps) (some g)
                :: gangUnitsOf t1 rest).filter (keepUnit B t2)
              = (gangUnitsOf t1 rest).filter (keepUnit B t2) := by
            simp [hk]
          rw [if_pos h2, e2, ih]
        · have hk : keepUnit B t2
              (SchedulingUnit.mk ps true (minPriority ps) (some g)) = true := by
            simp [keepUnit, h2]
          have e2 : (SchedulingUnit.mk ps true (minPriority ps) (some g)
                :: gangUnitsOf t1 rest).filter (keepUnit B t2)
              = SchedulingUnit.mk ps true (minPriority ps) (some g)
                :: (gangUnitsOf t1 rest).filter (keepUnit B t2) := by
            simp [hk]
          rw [if_neg h2, e2, ih]

theorem buildUnits_mark (B t2 : List String) (s1 s2 : SchedState)
    (hpods : s2.all_pods.map Prod.snd = (s1.all_pods.map Prod.snd).map (markOne B))
    (ht2 : s2.gangs_in_transition = t2)
    (hsub : ∀ x ∈ s1.gangs_in_transition, x ∈ t2)
    (hfree : ∀ p ∈ s1.all_pods.map Prod.snd, ∀ g, gangOf p = some g → p.uid ∈ B →
      List.elem g t2 = true) :
    buildUnits s2 = (buildUnits s1).filter (keepUnit B t2) := by
  obtain ⟨hc1, hc2⟩ := collect_mark B t2 (s1.all_pods.map Prod.snd) hfree
  unfold buildUnits
  rw [hpods, ht2]
  dsimp only
  rw [List.filter_append]
  have part1 : ((collectPods ((s1.all_pods.map Prod.snd).map (markOne B))).1.map
        fun p => SchedulingUnit.mk [p] false p.priority none)
      = (((collectPods (s1.all_pods.map Prod.snd)).1.map
        fun p => SchedulingUnit.mk [p] false p.priority none).filter
          (keepUnit B t2)) := by
    rw [hc1, List.filter_map]
    have hcong : ∀ l : List PodInfo,
        l.filter ((keepUnit B t2) ∘ fun p => SchedulingUnit.mk [p] false p.priority none)
          = l.filter (fun p => !(List.elem p.uid B)) := by
      intro l
      refine List.filter_congr ?_
      intro p _
      simp [keepUnit]
    rw [hcong]
  have part2 : gangUnitsOf t2 (collectPods ((s1.all_pods.map Prod.snd).map (markOne B))).2
      = (gangUnitsOf s1.gangs_in_transition
          (collectPods (s1.all_pods.map Prod.snd)).2).filter (keepUnit B t2) := by
    rw [← gangUnitsOf_filter_trans t2
      (collectPods ((s1.all_pods.map Prod.snd).map (markOne B))).2, hc2,
      gangUnitsOf_filter_trans t2]
    exact gangUnitsOf_sub B s1.gangs_in_transition t2 hsub _
  rw [part1, part2]

theorem insertUnit_all_lt {u : SchedulingUnit} :
    ∀ {L : List SchedulingUnit}, (∀ w ∈ L, SchedulingUnit.ltb u w = true) →
      insertUnit u L = u :: L := by
  intro L h
  cases L with
  | nil => rfl
  | cons w L' =>
    rw [insertUnit, if_pos (h w (List.mem_cons_self _ _))]

theorem filter_insertUnit_pos {q : SchedulingUnit → Bool} {u : SchedulingUnit}
    (hq : q u = true) :
    ∀ {acc : List SchedulingUnit},
      acc.Pairwise (fun a b => SchedulingUnit.ltb b a = false) →
      (insertUnit u acc).filter q = insertUnit u (acc.filter q) := by
  intro acc
  induction acc with
  | nil =>
    intro _
    simp [insertUnit, hq]
  | cons v rest ih =>
    intro hp
    rw [List.pairwise_cons] at hp
    by_cases hlt : SchedulingUnit.ltb u v = true
    · have hall : ∀ w ∈ (v :: rest).filter q, SchedulingUnit.ltb u w = true := by
        intro w hw
        have hw' := List.mem_of_mem_filter hw
        rcases List.mem_cons.mp hw' with rfl | hwr
        · exact hlt
        · by_contra hc
          rw [Bool.not_eq_true] at hc
          have hfalse := ltb_false_trans (hp.1 w hwr) hc
          rw [hfalse] at hlt
          exact Bool.noConfusion hlt
      rw [insertUnit, if_pos hlt, insertUnit_all_lt hall]
      simp [hq]
    · rw [insertUnit, if_neg hlt]
      by_cases hqv : q v = true
      · have e1 : (v :: insertUnit u rest).filter q
            = v :: (insertUnit u rest).filter q := by simp [hqv]
        have e2 : (v :: rest).filter q = v :: rest.filter q := by simp [hqv]
        rw [e1, e2, ih hp.2, insertUnit, if_neg hlt]
      · have e1 : (v :: insertUnit u rest).filter q
            = (insertUnit u rest).filter q := by simp [hqv]
        have e2 : (v :: rest).filter q = rest.filter q := by simp [hqv]
        rw [e1, e2, ih hp.2]

theorem filter_insertUnit_neg {q : SchedulingUnit → Bool} {u : SchedulingUnit}
    (hq : q u = false) :
    ∀ (acc : List SchedulingUnit),
      (insertUnit u acc).filter q = acc.filter q := by
  intro acc
  induction acc with
  | nil => simp [insertUnit, hq]
  | cons v rest ih =>
    by_cases hlt : SchedulingUnit.ltb u v = true
    · rw [insertUnit, if_pos hlt]
      simp [hq]
    · rw [insertUnit, if_neg hlt]
      by_cases hqv : q v = true
      · simp [hqv, ih]
      · simp [hqv, ih]

theorem sortUnits_filter (q : SchedulingUnit → Bool) (l : List SchedulingUnit) :
    sortUnits (l.filter q) = (sortUnits l).filter q := by
  suffices h : ∀ acc : List SchedulingUnit,
      acc.Pairwise (fun a b => SchedulingUnit.ltb b a = false) →
      ((l.filter q).foldl (fun acc u => insertUnit u acc) (acc.filter q))
        = (l.foldl (fun acc u => insertUnit u acc) acc).filter q by
    have := h [] (by simp)
    simpa [sortUnits] using this
  induction l with
  | nil =>
    intro acc _
    rfl
  | cons u rest ih =>
    intro acc hacc
    rw [List.filter_cons]
    by_cases hq : q u = true
    · rw [if_pos hq, List.foldl_cons, List.foldl_cons]
      have e := filter_insertUnit_pos hq hacc
      rw [← e]
      exact ih (insertUnit u acc) (pairwise_insertUnit hacc)
    · rw [if_neg hq, List.foldl_cons]
      rw [Bool.not_eq_true] at hq
      rw [← filter_insertUnit_neg hq acc]
      exact ih (insertUnit u acc) (pairwise_insertUnit hacc)

theorem planAux_subset (total : Nat) :
    ∀ (q : List SchedulingUnit) (needed : Nat) (u : SchedulingUnit),
      u ∈ planAux total needed q → u ∈ q := by
  intro q
  induction q with
  | nil =>
    intro needed u h
    rw [planAux] at h
    exact absurd h (List.not_mem_nil u)
  | cons v rest ih =>
    intro needed u h
    by_cases hfit : needed + v.required_nodes ≤ total
    · rw [planAux, if_pos hfit] at h
      rcases List.mem_cons.mp h with rfl | h'
      · exact List.mem_cons_self _ _
      · exact List.mem_cons_of_mem _ (ih _ u h')
    · rw [planAux, if_neg hfit] at h
      exact List.mem_cons_of_mem _ (ih _ u h)

theorem planAux_filter (total : Nat) (keep : SchedulingUnit → Bool) :
    ∀ (q : List SchedulingUnit) (needed : Nat),
      (∀ u ∈ planAux total needed q, keep u = true) →
      planAux total needed (q.filter keep) = planAux total needed q := by
  intro q
  induction q with
  | nil =>
    intro needed _
    rfl
  | cons u rest ih =>
    intro needed h
    by_cases hk : keep u = true
    · have e : (u :: rest).filter keep = u :: rest.filter keep := by
        rw [List.filter_cons, if_pos hk]
      rw [e]
      by_cases hfit : needed + u.required_nodes ≤ total
      · have hplan : planAux total needed (u :: rest)
            = u :: planAux total (needed + u.required_nodes) rest := by
          rw [planAux, if_pos hfit]
        rw [hplan, planAux, if_pos hfit]
        have h' : ∀ v ∈ planAux total (needed + u.required_nodes) rest,
            keep v = true := by
          intro v hv
          refine h v ?_
          rw [hplan]
          exact List.mem_cons_of_mem _ hv
        rw [ih _ h']
      · have hplan : planAux total needed (u :: rest)
            = planAux total needed rest := by
          rw [planAux, if_neg hfit]
        rw [hplan, planAux, if_neg hfit]
        refine ih _ ?_
        intro v hv
        refine h v ?_
        rw [hplan]
        exact hv
    · have e : (u :: rest).filter keep = rest.filter keep := by
        rw [List.filter_cons, if_neg hk]
      rw [e]
      by_cases hfit : needed + u.required_nodes ≤ total
      · exfalso
        refine hk (h u ?_)
        rw [planAux, if_pos hfit]
        exact List.mem_cons_self _ _
      · have hplan : planAux total needed (u :: rest)
            = planAux total needed rest := by
          rw [planAux, if_neg hfit]
        rw [hplan]
        refine ih _ ?_
        intro v hv
        refine h v ?_
        rw [hplan]
        exact hv

theorem gangAdd_sources {g : String} {p : PodInfo} :
    ∀ (a : List (String × List PodInfo)) (gps : String × List PodInfo),
      gps ∈ gangAdd a g p → ∀ q ∈ gps.2, q = p ∨ ∃ gps0 ∈ a, q ∈ gps0.2 := by
  intro a
  induction a with
  | nil =>
    intro gps hgps q hq
    rw [gangAdd] at hgps
    rcases List.mem_cons.mp hgps with rfl | h
    · rcases List.mem_singleton.mp hq with rfl
      exact Or.inl rfl
    · exact absurd h (List.not_mem_nil _)
  | cons e rest ih =>
    obtain ⟨g0, ps0⟩ := e
    intro gps hgps q hq
    rw [gangAdd] at hgps
    by_cases heq : g0 = g
    · rw [if_pos heq] at hgps
      rcases List.mem_cons.mp hgps with rfl | h
      · rcases List.mem_append.mp hq with h1 | h1
        · exact Or.inr ⟨(g0, ps0), List.mem_cons_self _ _, h1⟩
        · rcases List.mem_singleton.mp h1 with rfl
          exact Or.inl rfl
      · exact Or.inr ⟨gps, List.mem_cons_of_mem _ h, hq⟩
    · rw [if_neg heq] at hgps
      rcases List.mem_cons.mp hgps with rfl | h
      · exact Or.inr ⟨(g0, ps0), List.mem_cons_self _ _, hq⟩
      · rcases ih gps h q hq with h1 | ⟨gps0, hg0, hq0⟩
        · exact Or.inl h1
        · exact Or.inr ⟨gps0, List.mem_cons_of_mem _ hg0, hq0⟩

theorem collect_sources :
    ∀ (l : List PodInfo) (acc : List PodInfo × List (String × List PodInfo)),
      (∀ x ∈ (l.foldl collectStep acc).1, x ∈ l ∨ x ∈ acc.1) ∧
      (∀ gps ∈ (l.foldl collectStep acc).2, ∀ q ∈ gps.2,
        q ∈ l ∨ ∃ gps0 ∈ acc.2, q ∈ gps0.2) := by
  intro l
  induction l with
  | nil =>
    intro acc
    exact ⟨fun x hx => Or.inr hx, fun gps hgps q hq => Or.inr ⟨gps, hgps, hq⟩⟩
  | cons p rest ih =>
    intro acc
    rw [List.foldl_cons]
    obtain ⟨ih1, ih2⟩ := ih (collectStep acc p)
    constructor
    · intro x hx
      rcases ih1 x hx with h | h
      · exact Or.inl (List.mem_cons_of_mem _ h)
      · by_cases hw : p.waiting_on_deletion = true
        · rw [collectStep_waiting hw] at h
          exact Or.inr h
        · rw [Bool.not_eq_true] at hw
          rcases hgo : gangOf p with _ | g
          · rw [collectStep_single hw hgo] at h
            dsimp only at h
            rcases List.mem_append.mp h with h1 | h1
            · exact Or.inr h1
            · rcases List.mem_singleton.mp h1 with rfl
              exact Or.inl (List.mem_cons_self _ _)
          · rw [collectStep_gang hw hgo] at h
            exact Or.inr h
    · intro gps hgps q hq
      rcases ih2 gps hgps q hq with h | ⟨gps0, hg0, hq0⟩
      · exact Or.inl (List.mem_cons_of_mem _ h)
      · by_cases hw : p.waiting_on_deletion = true
        · rw [collectStep_waiting hw] at hg0
          exact Or.inr ⟨gps0, hg0, hq0⟩
        · rw [Bool.not_eq_true] at hw
          rcases hgo : gangOf p with _ | g
          · rw [collectStep_single hw hgo] at hg0
            exact Or.inr ⟨gps0, hg0, hq0⟩
          · rw [collectStep_gang hw hgo] at hg0
            dsimp only at hg0
            rcases gangAdd_sources acc.2 gps0 hg0 q hq0 with h1 | ⟨gps1, hg1, hq1⟩
            · exact Or.inl (h1 ▸ List.mem_cons_self _ _)
            · exact Or.inr ⟨gps1, hg1, hq1⟩

theorem gangAdd_mem_self {g : String} {p : PodInfo} :
    ∀ a : List (String × List PodInfo),
      ∃ ps, (g, ps) ∈ gangAdd a g p ∧ p ∈ ps := by
  intro a
  induction a with
  | nil =>
    exact ⟨[p], List.mem_singleton.mpr rfl, List.mem_singleton.mpr rfl⟩
  | cons e rest ih =>
    obtain ⟨g0, ps0⟩ := e
    rw [gangAdd]
    by_cases heq : g0 = g
    · subst heq
      rw [if_pos rfl]
      exact ⟨ps0 ++ [p], List.mem_cons_self _ _,
        List.mem_append.mpr (Or.inr (List.mem_singleton.mpr rfl))⟩
    · rw [if_neg heq]
      obtain ⟨ps, hmem, hp⟩ := ih
      exact ⟨ps, List.mem_cons_of_mem _ hmem, hp⟩

theorem gangAdd_mem_preserve {g' : String} {ps' : List PodInfo} {q : PodInfo}
    {g : String} {p : PodInfo} :
    ∀ a : List (String × List PodInfo), (g', ps') ∈ a → q ∈ ps' →
      ∃ ps'', (g', ps'') ∈ gangAdd a g p ∧ q ∈ ps'' := by
  intro a
  induction a with
  | nil =>
    intro h _
    exact absurd h (List.not_mem_nil _)
  | cons e rest ih =>
    obtain ⟨g0, ps0⟩ := e
    intro hmem hq
    rw [gangAdd]
    by_cases heq : g0 = g
    · rw [if_pos heq]
      rcases List.mem_cons.mp hmem with he | htail
      · rw [Prod.mk.injEq] at he
        refine ⟨ps0 ++ [p], ?_, ?_⟩
        · rw [he.1]
          exact List.mem_cons_self _ _
        · exact List.mem_append.mpr (Or.inl (he.2 ▸ hq))
      · exact ⟨ps', List.mem_cons_of_mem _ htail, hq⟩
    · rw [if_neg heq]
      rcases List.mem_cons.mp hmem with he | htail
      · rw [Prod.mk.injEq] at he
        refine ⟨ps', ?_, hq⟩
        rw [← he.1, ← he.2]
        exact List.mem_cons_self _ _
      · obtain ⟨ps'', hmem'', hq''⟩ := ih htail hq
        exact ⟨ps'', List.mem_cons_of_mem _ hmem'', hq''⟩

theorem mem_collect_gangs {q : PodInfo} {g : String}
    (hw : q.waiting_on_deletion = false) (hgo : gangOf q = some g) :
    ∀ (l : List PodInfo) (acc : List PodInfo × List (String × List PodInfo)),
      (q ∈ l ∨ ∃ ps, (g, ps) ∈ acc.2 ∧ q ∈ ps) →
      ∃ ps, (g, ps) ∈ (l.foldl collectStep acc).2 ∧ q ∈ ps := by
  intro l
  induction l with
  | nil =>
    intro acc h
    rcases h with h | h
    · exact absurd h (List.not_mem_nil q)
    · exact h
  | cons p rest ih =>
    intro acc h
    rw [List.foldl_cons]
    refine ih (collectStep acc p) ?_
    have hpreserve : (∃ ps, (g, ps) ∈ acc.2 ∧ q ∈ ps) →
        ∃ ps, (g, ps) ∈ (collectStep acc p).2 ∧ q ∈ ps := by
      rintro ⟨ps, hmem, hq⟩
      by_cases hw' : p.waiting_on_deletion = true
      · rw [collectStep_waiting hw']
        exact ⟨ps, hmem, hq⟩
      · rw [Bool.not_eq_true] at hw'
        rcases hgo' : gangOf p with _ | g'
        · rw [collectStep_single hw' hgo']
          exact ⟨ps, hmem, hq⟩
        · rw [collectStep_gang hw' hgo']
          dsimp only
          exact gangAdd_mem_preserve acc.2 hmem hq
    rcases h with h | h
    · rcases List.mem_cons.mp h with rfl | hrest
      · refine Or.inr ?_
        rw [collectStep_gang hw hgo]
        dsimp only
        exact gangAdd_mem_self acc.2
      · exact Or.inl hrest
    · exact Or.inr (hpreserve h)

theorem gangAdd_keys_mem {g : String} {p : PodInfo} :
    ∀ a : List (String × List PodInfo), g ∈ a.map Prod.fst →
      (gangAdd a g p).map Prod.fst = a.map Prod.fst := by
  intro a
  induction a with
  | nil =>
    intro h
    exact absurd h (List.not_mem_nil g)
  | cons e rest ih =>
    obtain ⟨g0, ps0⟩ := e
    intro h
    rw [gangAdd]
    by_cases heq : g0 = g
    · rw [if_pos heq]
      rfl
    · rw [if_neg heq, List.map_cons, List.map_cons, ih]
      rcases List.mem_cons.mp h with h1 | h1
      · exact absurd h1.symm heq
      · exact h1

theorem gangAdd_keys_not_mem {g : String} {p : PodInfo} :
    ∀ a : List (String × List PodInfo), g ∉ a.map Prod.fst →
      (gangAdd a g p).map Prod.fst = a.map Prod.fst ++ [g] := by
  intro a
  induction a with
  | nil =>
    intro _
    rfl
  | cons e rest ih =>
    obtain ⟨g0, ps0⟩ := e
    intro h
    rw [List.map_cons] at h
    have h0 : g0 ≠ g := by
      intro hc
      subst hc
      exact h (List.mem_cons_self _ _)
    rw [gangAdd, if_neg h0, List.map_cons, List.map_cons,
      ih (fun hc => h (List.mem_cons_of_mem _ hc)), List.cons_append]

theorem collect_gangs_nodup :
    ∀ (l : List PodInfo) (acc : List PodInfo × List (String × List PodInfo)),
      ((acc.2.map Prod.fst)).Nodup →
      (((l.foldl collectStep acc).2.map Prod.fst)).Nodup := by
  intro l
  induction l with
  | nil =>
    intro acc h
    exact h
  | cons p rest ih =>
    intro acc h
    rw [List.foldl_cons]
    refine ih (collectStep acc p) ?_
    by_cases hw : p.waiting_on_deletion = true
    · rw [collectStep_waiting hw]
      exact h
    · rw [Bool.not_eq_true] at hw
      rcases hgo : gangOf p with _ | g
      · rw [collectStep_single hw hgo]
        exact h
      · rw [collectStep_gang hw hgo]
        dsimp only
        by_cases hmem : g ∈ acc.2.map Prod.fst
        · rw [gangAdd_keys_mem acc.2 hmem]
          exact h
        · rw [gangAdd_keys_not_mem acc.2 hmem]
          rw [List.nodup_append]
          exact ⟨h, List.nodup_singleton g,
            fun x hx hxg => hmem ((List.mem_singleton.mp hxg) ▸ hx)⟩

theorem doPreempts_keys (P : List String) (A : List (String × Option String))
    (pods : List (String × PodInfo)) (t : List String) :
    (doPreempts P A pods t).1.map Prod.fst = A.map Prod.fst := by
  rw [doPreempts_A, List.map_map]
  refine List.map_congr_left ?_
  intro kv _
  rcases kv with ⟨k, v⟩
  rcases v with _ | uid
  · rfl
  · dsimp only [Function.comp]
    split_ifs <;> rfl

theorem freeNodes_nodup {A : List (String × Option String)}
    (h : (A.map Prod.fst).Nodup) : (freeNodes A).Nodup := by
  unfold freeNodes
  exact (List.Sublist.map Prod.fst (List.filter_sublist A)).nodup h

theorem planPod_mem_table (s : SchedState) :
    ∀ p ∈ planPodList (createPlan s), p ∈ s.all_pods.map Prod.snd := by
  intro p hp
  obtain ⟨u, hu, hpu⟩ := mem_planPodList.mp hp
  have hq : u ∈ rebuildQueue s := planAux_subset _ _ _ u hu
  have hb : u ∈ buildUnits s := (mem_sortUnits _).mp hq
  unfold buildUnits at hb
  rcases List.mem_append.mp hb with h1 | h1
  · obtain ⟨p0, hp0, rfl⟩ := List.mem_map.mp h1
    rcases List.mem_singleton.mp hpu with rfl
    rcases (collect_sources (s.all_pods.map Prod.snd) ([], [])).1 p
      (by rw [← collectPods_eq_foldl]; exact hp0) with h | h
    · exact h
    · exact absurd h (List.not_mem_nil p)
  · obtain ⟨gps, hgps, _, hueq⟩ := mem_gangUnitsOf h1
    have hpods : u.pods = gps.2 := by rw [hueq]
    rw [hpods] at hpu
    rcases (collect_sources (s.all_pods.map Prod.snd) ([], [])).2 gps
      (by rw [← collectPods_eq_foldl]; exact hgps) p hpu with h | ⟨gps0, hg0, _⟩
    · exact h
    · exact absurd hg0 (List.not_mem_nil gps0)

theorem pipelineState_A (s : SchedState) :
    (pipelineState s).node_assignments =
      (bindAll
        (doPreempts (planPodUids (createPlan s)) s.node_assignments s.all_pods
          s.gangs_in_transition).1
        (sortStrings (freeNodes
          (doPreempts (planPodUids (createPlan s)) s.node_assignments s.all_pods
            s.gangs_in_transition).1))
        (createPlan s)).1 := rfl

theorem pipelineState_pods (s : SchedState) :
    (pipelineState s).all_pods =
      (doPreempts (planPodUids (createPlan s)) s.node_assignments s.all_pods
        s.gangs_in_transition).2.1 := rfl

theorem pipelineState_trans (s : SchedState) :
    (pipelineState s).gangs_in_transition =
      (doPreempts (planPodUids (createPlan s)) s.node_assignments s.all_pods
        s.gangs_in_transition).2.2.1 := rfl

theorem pipeline_pre1 (s : SchedState) (hwf : WFKeys s) :
    (((doPreempts (planPodUids (createPlan s)) s.node_assignments s.all_pods
      s.gangs_in_transition).1).map Prod.fst).Nodup := by
  rw [doPreempts_keys]
  exact hwf.1

theorem pipeline_pre2 (s : SchedState) (hwf : WFKeys s) :
    (sortStrings (freeNodes
      (doPreempts (planPodUids (createPlan s)) s.node_assignments s.all_pods
        s.gangs_in_transition).1)).Nodup :=
  ((sortStrings_perm _).nodup_iff).mpr (freeNodes_nodup (pipeline_pre1 s hwf))

theorem pipeline_pre3 (s : SchedState) :
    ∀ x, x ∈ sortStrings (freeNodes
      (doPreempts (planPodUids (createPlan s)) s.node_assignments s.all_pods
        s.gangs_in_transition).1) ↔
      x ∈ freeNodes
        (doPreempts (planPodUids (createPlan s)) s.node_assignments s.all_pods
          s.gangs_in_transition).1 :=
  fun _ => (sortStrings_perm _).mem_iff

theorem pipeline_pre4 (s : SchedState)
    (hnn : "" ∉ s.node_assignments.map Prod.fst) :
    "" ∉ ((doPreempts (planPodUids (createPlan s)) s.node_assignments s.all_pods
      s.gangs_in_transition).1).map Prod.fst := by
  rw [doPreempts_keys]
  exact hnn

theorem plan_units_kept (s : SchedState) (hwf : WFKeys s)
    (hiw : waitTransB s = true) :
    ∀ u ∈ createPlan s,
      keepUnit
        (preemptedUids (planPodUids (createPlan s)) s.all_pods s.node_assignments)
        ((doPreempts (planPodUids (createPlan s)) s.node_assignments s.all_pods
          s.gangs_in_transition).2.2.1) u = true := by
  intro u hu
  have hq : u ∈ buildUnits s := (mem_sortUnits _).mp (planAux_subset _ _ _ u hu)
  unfold buildUnits at hq
  rcases List.mem_append.mp hq with h1 | h1
  · obtain ⟨p0, _, rfl⟩ := List.mem_map.mp h1
    have hPmem : p0.uid ∈ planPodUids (createPlan s) := by
      unfold planPodUids
      exact List.mem_map.mpr
        ⟨p0, mem_planPodList.mpr ⟨_, hu, List.mem_singleton.mpr rfl⟩, rfl⟩
    have hnB : p0.uid ∉
        preemptedUids (planPodUids (createPlan s)) s.all_pods s.node_assignments :=
      fun hB => (mem_preemptedUids.mp hB).2.2.1 hPmem
    simp [keepUnit, hnB]
  · obtain ⟨gps, hgps, hnt1, hueq⟩ := mem_gangUnitsOf h1
    subst hueq
    have hg2 : gps.1 ∉
        (doPreempts (planPodUids (createPlan s)) s.node_assignments s.all_pods
          s.gangs_in_transition).2.2.1 := by
      intro hg2
      rcases doPreempts_trans_upper _ _ _ _ hg2 with
        h | ⟨uid, r, ⟨n, hn⟩, hne, hnP, hget, hgang⟩
      · exact hnt1 h
      · have hmem : (uid, r) ∈ s.all_pods := mem_of_dictGet? hget
        by_cases hw : r.waiting_on_deletion = true
        · unfold waitTransB at hiw
          have hall := List.all_eq_true.mp hiw (uid, r) hmem
          dsimp only at hall
          rw [hw, hgang] at hall
          simp only [Bool.not_true, Bool.false_or, decide_eq_true_eq] at hall
          exact hnt1 hall
        · rw [Bool.not_eq_true] at hw
          have hval : r ∈ s.all_pods.map Prod.snd :=
            List.mem_map.mpr ⟨(uid, r), hmem, rfl⟩
          obtain ⟨ps, hpsmem, hr⟩ :=
            mem_collect_gangs hw hgang (s.all_pods.map Prod.snd) ([], [])
              (Or.inl hval)
          have hnodup := collect_gangs_nodup (s.all_pods.map Prod.snd) ([], [])
            (by simp)
          rw [collectPods_eq_foldl] at hgps
          have e1 : dictGet?
              (((s.all_pods.map Prod.snd).foldl collectStep ([], [])).2) gps.1
              = some gps.2 :=
            dictGet?_of_mem_nodup hnodup hgps
          have e2 : dictGet?
              (((s.all_pods.map Prod.snd).foldl collectStep ([], [])).2) gps.1
              = some ps :=
            dictGet?_of_mem_nodup hnodup hpsmem
          rw [e1] at e2
          have hps : gps.2 = ps := Option.some.inj e2
          have huid : r.uid = uid := hwf.2.2 (uid, r) hmem
          refine hnP ?_
          rw [← huid]
          unfold planPodUids
          refine List.mem_map.mpr ⟨r, mem_planPodList.mpr ⟨_, hu, ?_⟩, rfl⟩
          show r ∈ gps.2
          rw [hps]
          exact hr
    simp [keepUnit, hg2]

theorem createPlan_pipeline (s : SchedState) (hwf : WFKeys s)
    (hiw : waitTransB s = true)
    (hnn : "" ∉ s.node_assignments.map Prod.fst) :
    createPlan (pipelineState s) = createPlan s := by
  obtain ⟨c1, _, _, _, _, _, _⟩ := bindAll_master (createPlan s)
    (doPreempts (planPodUids (createPlan s)) s.node_assignments s.all_pods
      s.gangs_in_transition).1
    (sortStrings (freeNodes
      (doPreempts (planPodUids (createPlan s)) s.node_assignments s.all_pods
        s.gangs_in_transition).1))
    (pipeline_pre1 s hwf) (pipeline_pre2 s hwf) (pipeline_pre3 s)
    (pipeline_pre4 s hnn)
  have hkeys2 : (pipelineState s).node_assignments.map Prod.fst
      = s.node_assignments.map Prod.fst := by
    rw [pipelineState_A, c1, doPreempts_keys]
  have hlen : (pipelineState s).node_assignments.length
      = s.node_assignments.length := by
    have hc := congrArg List.length hkeys2
    rwa [List.length_map, List.length_map] at hc
  have hbu : buildUnits (pipelineState s) = (buildUnits s).filter
      (keepUnit
        (preemptedUids (planPodUids (createPlan s)) s.all_pods s.node_assignments)
        ((doPreempts (planPodUids (createPlan s)) s.node_assignments s.all_pods
          s.gangs_in_transition).2.2.1)) := by
    refine buildUnits_mark _ _ s (pipelineState s) ?_ ?_ ?_ ?_
    · rw [pipelineState_pods, doPreempts_pods _ _ _ _ hwf.2.1]
      exact markWaiting_values hwf.2.2
    · exact pipelineState_trans s
    · exact fun x hx => doPreempts_trans_mono _ _ _ _ hx
    · intro p hp g hg hB
      obtain ⟨⟨n, hn⟩, hne, hnP, _⟩ := mem_preemptedUids.mp hB
      obtain ⟨kv, hkv, hsnd⟩ := List.mem_map.mp hp
      have hkey : p.uid = kv.1 := by
        rw [← hsnd]
        exact hwf.2.2 kv hkv
      have hpair : (p.uid, p) = kv := Prod.ext hkey hsnd.symm
      have hget : dictGet? s.all_pods p.uid = some p :=
        dictGet?_of_mem_nodup hwf.2.1 (hpair ▸ hkv)
      exact List.elem_iff.mpr
        (doPreempts_trans_lower _ _ _ _ p.uid p ⟨n, hn⟩ hne hnP hget hg)
  have hqueue : rebuildQueue (pipelineState s) = (rebuildQueue s).filter
      (keepUnit
        (preemptedUids (planPodUids (createPlan s)) s.all_pods s.node_assignments)
        ((doPreempts (planPodUids (createPlan s)) s.node_assignments s.all_pods
          s.gangs_in_transition).2.2.1)) := by
    unfold rebuildQueue
    rw [hbu, sortUnits_filter]
  show planAux (pipelineState s).node_assignments.length 0
      (rebuildQueue (pipelineState s)) = createPlan s
  rw [hlen, hqueue, planAux_filter _ _ _ _ (plan_units_kept s hwf hiw)]
  rfl

theorem pipeline_fix (s : SchedState) (hwf : WFKeys s)
    (hiw : waitTransB s = true)
    (hnn : "" ∉ s.node_assignments.map Prod.fst) :
    pipelineRun (pipelineState s) = (pipelineState s, []) := by
  obtain ⟨c1, c2, c3, c4, c5, c6, c7⟩ := bindAll_master (createPlan s)
    (doPreempts (planPodUids (createPlan s)) s.node_assignments s.all_pods
      s.gangs_in_transition).1
    (sortStrings (freeNodes
      (doPreempts (planPodUids (createPlan s)) s.node_assignments s.all_pods
        s.gangs_in_transition).1))
    (pipeline_pre1 s hwf) (pipeline_pre2 s hwf) (pipeline_pre3 s)
    (pipeline_pre4 s hnn)
  apply pipeline_noop
  · intro kv hkv uid hval hne
    rw [createPlan_pipeline s hwf hiw hnn]
    rw [pipelineState_A s] at hkv
    rcases c4 kv hkv with hA1mem | ⟨p, hp, hpv⟩
    · rw [doPreempts_A] at hA1mem
      obtain ⟨kv0, hkv0, hmap⟩ := List.mem_map.mp hA1mem
      obtain ⟨k0, v0⟩ := kv0
      rcases v0 with _ | uid0
      · dsimp only at hmap
        rw [← hmap] at hval
        exact Option.noConfusion hval
      · dsimp only at hmap
        by_cases hcond : uid0 ≠ "" ∧ uid0 ∉ planPodUids (createPlan s)
        · rw [if_pos hcond] at hmap
          rw [← hmap] at hval
          exact Option.noConfusion hval
        · rw [if_neg hcond] at hmap
          rw [← hmap] at hval
          dsimp only at hval
          obtain rfl := Option.some.inj hval
          push_neg at hcond
          rcases Classical.em (uid0 = "") with he | he
          · exact absurd he hne
          · exact hcond he
    · rw [hval] at hpv
      obtain rfl := Option.some.inj hpv
      unfold planPodUids
      exact List.mem_map.mpr ⟨p, hp, rfl⟩
  · by_cases hav : (bindAll
        (doPreempts (planPodUids (createPlan s)) s.node_assignments s.all_pods
          s.gangs_in_transition).1
        (sortStrings (freeNodes
          (doPreempts (planPodUids (createPlan s)) s.node_assignments s.all_pods
            s.gangs_in_transition).1))
        (createPlan s)).2.1 = []
    · refine Or.inr ?_
      rw [pipelineState_A s]
      refine List.eq_nil_iff_forall_not_mem.mpr ?_
      intro x hx
      have hmem := (c3 x).mpr hx
      rw [hav] at hmem
      exact List.not_mem_nil x hmem
    · refine Or.inl ?_
      have hneA2 : "" ∉ ((bindAll
          (doPreempts (planPodUids (createPlan s)) s.node_assignments s.all_pods
            s.gangs_in_transition).1
          (sortStrings (freeNodes
            (doPreempts (planPodUids (createPlan s)) s.node_assignments s.all_pods
              s.gangs_in_transition).1))
          (createPlan s)).1).map Prod.fst := by
        rw [c1, doPreempts_keys]
        exact hnn
      intro p hp
      rw [createPlan_pipeline s hwf hiw hnn] at hp
      rcases c6 p hp with h | h
      · rw [pipelineState_A s, truthy_getPodNode_eq hneA2]
        exact h
      · exact absurd h hav

theorem clearPodNode_keys (uid : String) :
    ∀ A : List (String × Option String),
      (clearPodNode A uid).map Prod.fst = A.map Prod.fst := by
  intro A
  induction A with
  | nil => rfl
  | cons kv rest ih =>
    obtain ⟨n, v⟩ := kv
    rw [clearPodNode]
    by_cases hv : v = some uid
    · rw [if_pos hv]
      rfl
    · rw [if_neg hv, List.map_cons, List.map_cons, ih]

theorem dictDel_keys_sublist {α : Type} (k : String) :
    ∀ m : List (String × α),
      ((dictDel m k).map Prod.fst).Sublist (m.map Prod.fst) := by
  intro m
  induction m with
  | nil => exact List.Sublist.refl _
  | cons kv rest ih =>
    obtain ⟨k0, v0⟩ := kv
    rw [dictDel]
    by_cases hk : k0 = k
    · rw [if_pos hk]
      exact (List.map Prod.fst rest).sublist_cons_self k0
    · rw [if_neg hk, List.map_cons, List.map_cons]
      exact ih.cons₂ k0

theorem dictDel_subset {α : Type} (k : String) :
    ∀ m : List (String × α), ∀ kv ∈ dictDel m k, kv ∈ m := by
  intro m
  induction m with
  | nil =>
    intro kv h
    exact absurd h (List.not_mem_nil kv)
  | cons e rest ih =>
    obtain ⟨k0, v0⟩ := e
    intro kv h
    rw [dictDel] at h
    by_cases hk : k0 = k
    · rw [if_pos hk] at h
      exact List.mem_cons_of_mem _ h
    · rw [if_neg hk] at h
      rcases List.mem_cons.mp h with rfl | h1
      · exact List.mem_cons_self _ _
      · exact List.mem_cons_of_mem _ (ih kv h1)

theorem dictDel_not_mem_keys {α : Type} {k : String} :
    ∀ {m : List (String × α)}, ((m.map Prod.fst)).Nodup →
      k ∉ (dictDel m k).map Prod.fst := by
  intro m
  induction m with
  | nil =>
    intro _ h
    exact absurd h (List.not_mem_nil k)
  | cons e rest ih =>
    obtain ⟨k0, v0⟩ := e
    intro hnd
    rw [List.map_cons, List.nodup_cons] at hnd
    rw [dictDel]
    by_cases hk : k0 = k
    · rw [if_pos hk]
      intro h
      exact hnd.1 (hk ▸ h)
    · rw [if_neg hk, List.map_cons]
      intro h
      rcases List.mem_cons.mp h with h1 | h1
      · exact hk h1.symm
      · exact ih hnd.2 h1

theorem WFKeys_handleDeleted (p : PodInfo) (s : SchedState) (hwf : WFKeys s) :
    WFKeys (handleDeleted p s) := by
  unfold handleDeleted WFKeys
  dsimp only
  refine ⟨?_, ?_, ?_⟩
  · rw [clearPodNode_keys]
    exact hwf.1
  · by_cases hhas : dictHas s.all_pods p.uid = true
    · rw [if_pos hhas]
      exact (dictDel_keys_sublist p.uid s.all_pods).nodup hwf.2.1
    · rw [if_neg hhas]
      exact hwf.2.1
  · intro kv hkv
    by_cases hhas : dictHas s.all_pods p.uid = true
    · rw [if_pos hhas] at hkv
      exact hwf.2.2 kv (dictDel_subset p.uid s.all_pods kv hkv)
    · rw [if_neg hhas] at hkv
      exact hwf.2.2 kv hkv

theorem waitTransB_handleDeleted (p : PodInfo) (s : SchedState)
    (hiw : waitTransB s = true) : waitTransB (handleDeleted p s) = true := by
  unfold waitTransB at hiw ⊢
  unfold handleDeleted
  dsimp only
  rw [List.all_eq_true] at hiw ⊢
  intro kv hkv
  by_cases hhas : dictHas s.all_pods p.uid = true
  · rw [if_pos hhas] at hkv
    exact hiw kv (dictDel_subset p.uid s.all_pods kv hkv)
  · rw [if_neg hhas] at hkv
    exact hiw kv hkv

theorem pipelineState_pods_keys (s : SchedState) (hwf : WFKeys s) :
    (pipelineState s).all_pods.map Prod.fst = s.all_pods.map Prod.fst := by
  rw [pipelineState_pods, doPreempts_pods _ _ _ _ hwf.2.1, markWaiting_keys]

theorem pipelineState_A_keys (s : SchedState) (hwf : WFKeys s)
    (hnn : "" ∉ s.node_assignments.map Prod.fst) :
    (pipelineState s).node_assignments.map Prod.fst
      = s.node_assignments.map Prod.fst := by
  obtain ⟨c1, _, _, _, _, _, _⟩ := bindAll_master (createPlan s)
    (doPreempts (planPodUids (createPlan s)) s.node_assignments s.all_pods
      s.gangs_in_transition).1
    (sortStrings (freeNodes
      (doPreempts (planPodUids (createPlan s)) s.node_assignments s.all_pods
        s.gangs_in_transition).1))
    (pipeline_pre1 s hwf) (pipeline_pre2 s hwf) (pipeline_pre3 s)
    (pipeline_pre4 s hnn)
  rw [pipelineState_A, c1, doPreempts_keys]

theorem not_in_plan_of_not_key (s : SchedState) (hwf : WFKeys s) {uid : String}
    (h : uid ∉ s.all_pods.map Prod.fst) :
    uid ∉ planPodUids (createPlan s) := by
  intro hP
  unfold planPodUids at hP
  obtain ⟨p, hp, hpe⟩ := List.mem_map.mp hP
  obtain ⟨kv, hkv, hsnd⟩ := List.mem_map.mp (planPod_mem_table s p hp)
  refine h ?_
  rw [← hpe, ← hsnd, hwf.2.2 kv hkv]
  exact List.mem_map.mpr ⟨kv, hkv, rfl⟩

theorem pipelineState_A_values (s : SchedState) (hwf : WFKeys s)
    (hnn : "" ∉ s.node_assignments.map Prod.fst) {uid : String}
    (hne : uid ≠ "") (hnP : uid ∉ planPodUids (createPlan s)) :
    ∀ kv ∈ (pipelineState s).node_assignments, kv.2 ≠ some uid := by
  obtain ⟨_, _, _, c4, _, _, _⟩ := bindAll_master (createPlan s)
    (doPreempts (planPodUids (createPlan s)) s.node_assignments s.all_pods
      s.gangs_in_transition).1
    (sortStrings (freeNodes
      (doPreempts (planPodUids (createPlan s)) s.node_assignments s.all_pods
        s.gangs_in_transition).1))
    (pipeline_pre1 s hwf) (pipeline_pre2 s hwf) (pipeline_pre3 s)
    (pipeline_pre4 s hnn)
  intro kv hkv hval
  rw [pipelineState_A] at hkv
  rcases c4 kv hkv with hA1mem | ⟨p, hp, hpv⟩
  · rw [doPreempts_A] at hA1mem
    obtain ⟨kv0, _, hmap⟩ := List.mem_map.mp hA1mem
    obtain ⟨k0, v0⟩ := kv0
    rcases v0 with _ | uid0
    · dsimp only at hmap
      rw [← hmap] at hval
      exact Option.noConfusion hval
    · dsimp only at hmap
      by_cases hcond : uid0 ≠ "" ∧ uid0 ∉ planPodUids (createPlan s)
      · rw [if_pos hcond] at hmap
        rw [← hmap] at hval
        exact Option.noConfusion hval
      · rw [if_neg hcond] at hmap
        rw [← hmap] at hval
        dsimp only at hval
        obtain rfl := Option.some.inj hval
        push_neg at hcond
        rcases Classical.em (uid0 = "") with he | he
        · exact hne he
        · exact hnP (hcond he)
  · rw [hpv] at hval
    obtain rfl := Option.some.inj hval
    refine hnP ?_
    unfold planPodUids
    exact List.mem_map.mpr ⟨p, hp, rfl⟩

/-- C6 counterexample: a MODIFIED event whose pod is known and whose
node_name is consistent with the node-assignment table is NOT a no-op in
general: line 183 re-runs the full scheduling pass, which here binds the
waiting high-priority pod, so the action list is non-empty and the
node table changes. -/
theorem c6_counterexample :
    dictHas c6S.all_pods (mkPod c6Event.pod).uid = true ∧
    dictGet? c6S.node_assignments "node-1" = some (some (mkPod c6Event.pod).uid) ∧
    (handleEvent c6Event c6S).map Prod.snd
      = Except.ok [Action.bind "hi" "hi" "default" "node-2"] ∧
    [Action.bind "hi" "hi" "default" "node-2"] ≠ ([] : List Action) :=
  ⟨rfl, rfl, by rfl, by decide⟩

/-- C6 (amended): a consistent MODIFIED event re-runs the scheduling
pipeline; on a state that is itself the result of a pipeline pass over a
well-formed state satisfying the wait/transition invariant, that second
pass is a fixed point, so handle_event returns the state unchanged with
an empty action list. -/
theorem c6_modified_consistent_amended (s : SchedState) (e : Event) (n : String)
    (hwf : WFKeys s) (hiw : waitTransB s = true)
    (hnn : "" ∉ s.node_assignments.map Prod.fst)
    (ht : e.event_type = EventType.MODIFIED)
    (hn : e.pod.node_name = some n) (hne : ¬(n = ""))
    (hhas : dictHas (pipelineState s).all_pods (mkPod e.pod).uid = true)
    (hcons : dictGet? (pipelineState s).node_assignments n
      = some (some (mkPod e.pod).uid)) :
    handleEvent e (pipelineState s) = Except.ok (pipelineState s, []) := by
  rw [handleEvent, ht]
  dsimp only
  have h1 : ¬(dictHas (pipelineState s).all_pods (mkPod e.pod).uid = false) := by
    rw [hhas]
    exact fun h => Bool.noConfusion h
  rw [if_neg h1, hn]
  dsimp only
  rw [if_neg hne, hcons]
  dsimp only
  rw [if_pos rfl, pipeline_fix s hwf hiw hnn]

theorem c6_modified_consistent_amended_witness :
    (WFKeys c6WS ∧ waitTransB c6WS = true ∧
      "" ∉ c6WS.node_assignments.map Prod.fst ∧
      dictHas (pipelineState c6WS).all_pods (mkPod c6WEvent.pod).uid = true ∧
      dictGet? (pipelineState c6WS).node_assignments "node-1"
        = some (some (mkPod c6WEvent.pod).uid)) ∧
    handleEvent c6WEvent (pipelineState c6WS)
      = Except.ok (pipelineState c6WS, []) :=
  ⟨⟨by unfold WFKeys; decide, rfl, by decide, rfl, rfl⟩,
   c6_modified_consistent_amended c6WS c6WEvent "node-1"
     (by unfold WFKeys; decide) rfl (by decide) rfl rfl (by decide) rfl rfl⟩

/-- C9 (amended): replaying a DELETED or MODIFIED event immediately
after itself yields an empty action list on the second call, from any
well-formed state satisfying the wait/transition invariant, provided the
pod uid is nonempty.  (ADDED replays are excluded: the counterexample
shows an ADDED event with a stale node_name repeats its preempt and bind
actions verbatim.) -/
theorem c9_replay_amended (s : SchedState) (e : Event) (s1 : SchedState)
    (acts : List Action)
    (hwf : WFKeys s) (hiw : waitTransB s = true)
    (hnn0 : "" ∉ s.node_assignments.map Prod.fst)
    (het : e.event_type ≠ EventType.ADDED)
    (huid : (mkPod e.pod).uid ≠ "")
    (h1 : handleEvent e s = Except.ok (s1, acts)) :
    handleEvent e s1 = Except.ok (s1, []) := by
  cases hty : e.event_type with
  | ADDED => exact absurd hty het
  | DELETED =>
    rw [handleEvent, hty] at h1
    dsimp only at h1
    rw [Except.ok.injEq] at h1
    have hs1 : s1 = pipelineState (handleDeleted (mkPod e.pod) s) := by
      unfold pipelineState
      rw [h1]
    have hwfd : WFKeys (handleDeleted (mkPod e.pod) s) :=
      WFKeys_handleDeleted _ s hwf
    have hiwd : waitTransB (handleDeleted (mkPod e.pod) s) = true :=
      waitTransB_handleDeleted _ s hiw
    have hnnd : "" ∉ (handleDeleted (mkPod e.pod) s).node_assignments.map
        Prod.fst := by
      rw [show (handleDeleted (mkPod e.pod) s).node_assignments
          = clearPodNode s.node_assignments (mkPod e.pod).uid from rfl,
        clearPodNode_keys]
      exact hnn0
    have hkeyd : (mkPod e.pod).uid ∉
        (handleDeleted (mkPod e.pod) s).all_pods.map Prod.fst := by
      unfold handleDeleted
      dsimp only
      by_cases hhas : dictHas s.all_pods (mkPod e.pod).uid = true
      · rw [if_pos hhas]
        exact dictDel_not_mem_keys hwf.2.1
      · rw [if_neg hhas]
        intro hmem
        exact hhas (dictHas_iff_mem_keys.mpr hmem)
    have hnP : (mkPod e.pod).uid ∉
        planPodUids (createPlan (handleDeleted (mkPod e.pod) s)) :=
      not_in_plan_of_not_key _ hwfd hkeyd
    have hkey1 : (mkPod e.pod).uid ∉ s1.all_pods.map Prod.fst := by
      rw [hs1, pipelineState_pods_keys _ hwfd]
      exact hkeyd
    have hhas1 : ¬(dictHas s1.all_pods (mkPod e.pod).uid = true) :=
      fun h => hkey1 (dictHas_iff_mem_keys.mp h)
    have hclear : clearPodNode s1.node_assignments (mkPod e.pod).uid
        = s1.node_assignments := by
      refine clearPodNode_noop ?_
      intro kv hkv
      rw [hs1] at hkv
      exact pipelineState_A_values _ hwfd hnnd huid hnP kv hkv
    have hdel1 : handleDeleted (mkPod e.pod) s1 = s1 := by
      unfold handleDeleted
      rw [if_neg hhas1, hclear]
    rw [handleEvent, hty]
    dsimp only
    rw [hdel1, hs1, pipeline_fix _ hwfd hiwd hnnd]
  | MODIFIED =>
    rw [handleEvent, hty] at h1
    dsimp only at h1
    by_cases hhas : dictHas s.all_pods (mkPod e.pod).uid = false
    · rw [if_pos hhas] at h1
      rw [Except.ok.injEq, Prod.mk.injEq] at h1
      obtain ⟨rfl, -⟩ := h1
      rw [handleEvent, hty]
      dsimp only
      rw [if_pos hhas]
    · rw [if_neg hhas] at h1
      rcases hnn : e.pod.node_name with _ | n
      · rw [hnn] at h1
        dsimp only at h1
        rw [Except.ok.injEq, Prod.mk.injEq] at h1
        obtain ⟨rfl, -⟩ := h1
        rw [handleEvent, hty]
        dsimp only
        rw [if_neg hhas, hnn]
      · rw [hnn] at h1
        dsimp only at h1
        by_cases hne2 : n = ""
        · rw [if_pos hne2] at h1
          rw [Except.ok.injEq, Prod.mk.injEq] at h1
          obtain ⟨rfl, -⟩ := h1
          rw [handleEvent, hty]
          dsimp only
          rw [if_neg hhas, hnn]
          dsimp only
          rw [if_pos hne2]
        · rw [if_neg hne2] at h1
          rcases hgn : dictGet? s.node_assignments n with _ | v
          · rw [hgn] at h1
            exact Except.noConfusion h1
          · rw [hgn] at h1
            dsimp only at h1
            by_cases hveq : v = some (mkPod e.pod).uid
            · rw [if_pos hveq] at h1
              rw [Except.ok.injEq] at h1
              have hs1 : s1 = pipelineState s := by
                unfold pipelineState
                rw [h1]
              rw [handleEvent, hty]
              dsimp only
              have hhas1 : ¬(dictHas s1.all_pods (mkPod e.pod).uid = false) := by
                rw [hs1, dictHas_eq_of_keys (pipelineState_pods_keys s hwf)]
                exact hhas
              rw [if_neg hhas1, hnn]
              dsimp only
              rw [if_neg hne2]
              have hsomeS : dictHas s.node_assignments n = true := by
                rw [dictHas, hgn]
                rfl
              have hsome1 : dictHas s1.node_assignments n = true := by
                rw [hs1, dictHas_eq_of_keys (pipelineState_A_keys s hwf hnn0)]
                exact hsomeS
              rw [dictHas] at hsome1
              obtain ⟨v', hv'⟩ := Option.isSome_iff_exists.mp hsome1
              rw [hv']
              dsimp only
              by_cases hveq' : v' = some (mkPod e.pod).uid
              · rw [if_pos hveq', hs1, pipeline_fix s hwf hiw hnn0]
              · rw [if_neg hveq']
            · rw [if_neg hveq] at h1
              rw [Except.ok.injEq, Prod.mk.injEq] at h1
              obtain ⟨rfl, -⟩ := h1
              rw [handleEvent, hty]
              dsimp only
              rw [if_neg hhas, hnn]
              dsimp only
              rw [if_neg hne2, hgn]
              dsimp only
              rw [if_neg hveq]

theorem c9_replay_amended_witness :
    (WFKeys c9WS ∧ waitTransB c9WS = true ∧
      "" ∉ c9WS.node_assignments.map Prod.fst ∧
      c9WEvent.event_type ≠ EventType.ADDED ∧ (mkPod c9WEvent.pod).uid ≠ "" ∧
      handleEvent c9WEvent c9WS = Except.ok (c9WS1, [])) ∧
    handleEvent c9WEvent c9WS1 = Except.ok (c9WS1, []) :=
  ⟨⟨by unfold WFKeys; decide, rfl, by decide, by decide, by decide, rfl⟩,
   c9_replay_amended c9WS c9WEvent c9WS1 []
     (by unfold WFKeys; decide) rfl (by decide) (by decide) (by decide) rfl⟩

theorem bindUnit_assigned_nodup :
    ∀ (ps : List PodInfo) (A : List (String × Option String)) (avail : List String),
      "" ∉ A.map Prod.fst → "" ∉ avail →
      (assignedUids A).Nodup → (assignedUids (bindUnit A avail ps).1).Nodup := by
  intro ps
  induction ps with
  | nil => intro A avail _ _ h; simpa [bindUnit] using h
  | cons p rest ih =>
    intro A avail hneA hnav h
    cases avail with
    | nil =>
      simp only [bindUnit]
      split_ifs with h1
      · exact ih A [] hneA hnav h
      · simpa using h
    | cons n avail1 =>
      simp only [bindUnit]
      split_ifs with h1 h2
      · exact ih A (n :: avail1) hneA hnav h
      · simpa using h
      · have hnav1 : "" ∉ avail1 := fun hc => hnav (List.mem_cons_of_mem _ hc)
        have hn : n ≠ "" := by
          intro hc
          subst hc
          exact hnav (List.mem_cons_self _ _)
        have hneA1 : "" ∉ (dictSet A n (some p.uid)).map Prod.fst := by
          intro hc
          rcases dictSet_keys_subset hc with h3 | h3
          · exact hneA h3
          · exact hn h3.symm
        refine ih _ _ hneA1 hnav1 ?_
        refine nodup_assigned_dictSet_fresh ?_ h
        rw [← getPodNode_none_iff]
        cases hgp : getPodNode A p.uid with
        | none => rfl
        | some m =>
          exfalso
          apply h1
          rw [truthy_getPodNode_eq hneA, hgp]
          rfl

theorem bindAll_assigned_nodup :
    ∀ (units : List SchedulingUnit) (A : List (String × Option String))
      (avail : List String),
      "" ∉ A.map Prod.fst → "" ∉ avail →
      (assignedUids A).Nodup → (assignedUids (bindAll A avail units).1).Nodup := by
  intro units
  induction units with
  | nil => intro A avail _ _ h; simpa [bindAll] using h
  | cons u rest ih =>
    intro A avail hneA hnav h
    simp only [bindAll]
    refine ih _ _ ?_ ?_ (bindUnit_assigned_nodup u.pods A avail hneA hnav h)
    · intro hc
      rcases bindUnit_keys_subset u.pods A avail "" hc with h1 | h1
      · exact hneA h1
      · exact hnav h1
    · intro hc
      exact hnav (bindUnit_avail_subset u.pods A avail "" hc)

theorem planToActions_assigned_nodup (s : SchedState) (plan : List SchedulingUnit)
    (hnn : "" ∉ s.node_assignments.map Prod.fst)
    (h : (assignedUids s.node_assignments).Nodup) :
    (assignedUids (planToActions s plan).1.node_assignments).Nodup := by
  simp only [planToActions]
  have hneA1 : "" ∉ ((doPreempts (planPodUids plan) s.node_assignments s.all_pods
      s.gangs_in_transition).1).map Prod.fst := by
    rw [doPreempts_keys]
    exact hnn
  have hnav : "" ∉ sortStrings (freeNodes (doPreempts (planPodUids plan)
      s.node_assignments s.all_pods s.gangs_in_transition).1) := by
    intro hc
    have hmem := (sortStrings_perm _).mem_iff.mp hc
    refine hneA1 ?_
    unfold freeNodes at hmem
    obtain ⟨kv, hkv, he⟩ := List.mem_map.mp hmem
    exact List.mem_map.mpr ⟨kv, List.mem_of_mem_filter hkv, he⟩
  exact bindAll_assigned_nodup _ _ _ hneA1 hnav
    (List.Nodup.sublist (doPreempts_assigned_sublist _ _ _ _) h)

theorem pipeline_assigned_nodup (s : SchedState)
    (hnn : "" ∉ s.node_assignments.map Prod.fst)
    (h : (assignedUids s.node_assignments).Nodup) :
    (assignedUids (pipelineRun s).1.node_assignments).Nodup :=
  planToActions_assigned_nodup s _ hnn h

/-- C5 amended: on states whose node names are nonempty, handle_event
preserves the no-duplicate-assignment invariant provided an ADDED event
carrying a truthy tracked node_name does not re-bind a pod that is
currently assigned to a different node; without that proviso the
invariant is lost because the ADDED branch records the new node without
clearing the old one (see the counterexample).  The nonempty-node-name
proviso matters because the already-assigned test of line 375 is a
truthiness check: a pod assigned only to a node named "" would be bound
a second time by step 4 itself. -/
theorem c5_no_duplicate_assignment_amended (s : SchedState)
    (hA : (s.node_assignments.map Prod.fst).Nodup)
    (hnd : (assignedUids s.node_assignments).Nodup)
    (hnn : "" ∉ s.node_assignments.map Prod.fst)
    (e : Event) (s' : SchedState) (acts : List Action)
    (hok : handleEvent e s = Except.ok (s', acts))
    (hside : e.event_type = EventType.ADDED →
      ∀ n, e.pod.node_name = some n → n ≠ "" →
        dictHas s.node_assignments n = true →
        ∀ m, (m, some e.pod.uid) ∈ s.node_assignments → m = n) :
    (assignedUids s'.node_assignments).Nodup := by
  obtain ⟨et, d⟩ := e
  obtain ⟨du, dn, dns, dp, dg, dnn⟩ := d
  cases et with
  | DELETED =>
    simp only [handleEvent] at hok
    rw [Except.ok.injEq] at hok
    have hnnD : "" ∉ (handleDeleted (mkPod ⟨du, dn, dns, dp, dg, dnn⟩)
        s).node_assignments.map Prod.fst := by
      rw [show (handleDeleted (mkPod ⟨du, dn, dns, dp, dg, dnn⟩) s).node_assignments
          = clearPodNode s.node_assignments
            (mkPod ⟨du, dn, dns, dp, dg, dnn⟩).uid from rfl, clearPodNode_keys]
      exact hnn
    have key := pipeline_assigned_nodup
      (handleDeleted (mkPod ⟨du, dn, dns, dp, dg, dnn⟩) s) hnnD
      (List.Nodup.sublist (assignedUids_clearPodNode_sublist _ _) hnd)
    rw [hok] at key
    simpa using key
  | ADDED =>
    simp only [handleEvent] at hok
    rw [Except.ok.injEq] at hok
    have hmut : (assignedUids
        (addedMutate (mkPod ⟨du, dn, dns, dp, dg, dnn⟩) dnn
          s).node_assignments).Nodup := by
      cases hnn2 : dnn with
      | none =>
        rw [addedMutate_A_none]
        exact hnd
      | some n =>
        rw [addedMutate_A_some]
        by_cases hc : n ≠ "" ∧ dictHas s.node_assignments n = true
        · rw [if_pos hc]
          exact nodup_assigned_dictSet_cond hA hnd
            (fun m hm => hside rfl n hnn2 hc.1 hc.2 m hm)
        · rw [if_neg hc]
          exact hnd
    have hnnA : "" ∉ (addedMutate (mkPod ⟨du, dn, dns, dp, dg, dnn⟩) dnn
        s).node_assignments.map Prod.fst := by
      cases hnn2 : dnn with
      | none =>
        rw [addedMutate_A_none]
        exact hnn
      | some n =>
        rw [addedMutate_A_some]
        by_cases hc : n ≠ "" ∧ dictHas s.node_assignments n = true
        · rw [if_pos hc, dictSet_keys_of_has _ hc.2]
          exact hnn
        · rw [if_neg hc]
          exact hnn
    have key := pipeline_assigned_nodup _ hnnA hmut
    rw [hok] at key
    simpa using key
  | MODIFIED =>
    simp only [handleEvent] at hok
    by_cases h1 : dictHas s.all_pods (mkPod ⟨du, dn, dns, dp, dg, dnn⟩).uid = false
    · rw [if_pos h1, Except.ok.injEq, Prod.mk.injEq] at hok
      rw [← hok.1]
      exact hnd
    · rw [if_neg h1] at hok
      revert hok
      cases hnn2 : dnn with
      | none =>
        intro hok
        dsimp only at hok
        rw [Except.ok.injEq, Prod.mk.injEq] at hok
        rw [← hok.1]
        exact hnd
      | some n =>
        intro hok
        dsimp only at hok
        by_cases h2 : n = ""
        · rw [if_pos h2, Except.ok.injEq, Prod.mk.injEq] at hok
          rw [← hok.1]
          exact hnd
        · rw [if_neg h2] at hok
          cases hg : dictGet? s.node_assignments n with
          | none =>
            rw [hg] at hok
            exact absurd hok (by simp)
          | some v =>
            rw [hg] at hok
            dsimp only at hok
            by_cases h3 : v = some (mkPod ⟨du, dn, dns, dp, dg, some n⟩).uid
            · rw [if_pos h3, Except.ok.injEq] at hok
              have key := pipeline_assigned_nodup s hnn hnd
              rw [hok] at key
              simpa using key
            · rw [if_neg h3, Except.ok.injEq, Prod.mk.injEq] at hok
              rw [← hok.1]
              exact hnd

/-- Witness for the amended C5 at the scenario of C1: the ADDED event has
no node_name, and the invariant survives the preempt-and-bind response. -/
theorem c5_no_duplicate_assignment_amended_witness :
    (assignedUids [("node-1", some "high")]).Nodup :=
  c5_no_duplicate_assignment_amended c1State (by decide) (by decide) (by decide)
    (addedEvent highDict)
    { node_assignments := [("node-1", some "high")],
      all_pods :=
        [("low", { uid := "low", name := "low", namespace_ := "default",
                   priority := 10, gang_name := none, waiting_on_deletion := true }),
         ("high", { uid := "high", name := "high", namespace_ := "default",
                    priority := 100, gang_name := none, waiting_on_deletion := false })],
      gangs_in_transition := [] }
    [Action.preempt "low" "low" "default",
     Action.bind "high" "high" "default" "node-1"]
    (by rfl)
    (fun _ n hn => Option.noConfusion hn)

end Sched
